import Mathlib

/-!
Verification of the ShortCircuitBot navigational core.

The Go program keeps a universe graph `map[int][]int`, merges dynamic wormhole
records into it, and answers route queries with a BFS (`FindShortestPath`,
part_006) and a weighted search (`FindPreferredPath`, two variants).  Go maps
are embedded as association lists with first-match lookup; a read of a missing
key yields the zero value of the element type, exactly as in Go.  All float64
arithmetic performed by the search (sums of 0, 1.0, 100.0, 1e9, 1e10) is exact
integer arithmetic far below 2^53, so costs embed as `Nat`.
-/

/-- A solar-system identifier (Go `int`). -/
abbrev SystemID := Int

/-- First-match association-list lookup: the semantics of a Go map read
(`v, ok := m[k]`). -/
def alookup {κ α : Type} [DecidableEq κ] : List (κ × α) → κ → Option α
  | [], _ => none
  | (k, v) :: rest, a => if k = a then some v else alookup rest a

/-- Go `m[k] = v`: replace the binding if the key is present, add it otherwise. -/
def aset {κ α : Type} [DecidableEq κ] : List (κ × α) → κ → α → List (κ × α)
  | [], a, v => [(a, v)]
  | (k, w) :: rest, a, v => if k = a then (k, v) :: rest else (k, w) :: aset rest a v

/-- Go `map[int][]int`, the adjacency representation used throughout the bot. -/
abbrev AdjGraph := List (SystemID × List SystemID)

/-- Go `graph[a]`: the adjacency list of `a`; a missing key reads as a nil slice. -/
def nbrs (g : AdjGraph) (a : SystemID) : List SystemID :=
  (alookup g a).getD []

/-- Go `graph[a] = append(graph[a], b)`. -/
def appendNbr (g : AdjGraph) (a b : SystemID) : AdjGraph :=
  aset g a (nbrs g a ++ [b])

/-- The bidirectional edge insertion used by every edge source:
`graph[a] = append(graph[a], b); graph[b] = append(graph[b], a)`. -/
def addEdgePair (g : AdjGraph) (a b : SystemID) : AdjGraph :=
  appendNbr (appendNbr g a b) b a

/-- The key set of the graph map (`for id := range graph`). -/
def keysG (g : AdjGraph) : List SystemID := g.map Prod.fst

/-- Every identifier occurring in the graph, keys and neighbor entries alike. -/
def allIds (g : AdjGraph) : List SystemID :=
  g.foldr (fun kv acc => kv.1 :: (kv.2 ++ acc)) []

/-- Go `strconv.Atoi`: an optional single sign followed by one or more decimal
digits.  (Go additionally rejects 64-bit overflow; the identifiers handled by
this program are far below that bound.) -/
def atoi (s : String) : Option Int :=
  match s.toList with
  | [] => none
  | c :: cs =>
      let sign : Int := if c = '-' then -1 else 1
      let digits := if c = '-' || c = '+' then cs else c :: cs
      if digits.isEmpty then none
      else if digits.all Char.isDigit then
        some (sign * digits.foldl (fun acc d => 10 * acc + ((d.toNat : Int) - 48)) 0)
      else none

/-! ## The static topology loader and the merger (solar_map.go / solarmap.go) -/

/-- One iteration of the row loop of `BuildGraphFromCSV`: skip short rows and
rows whose system columns do not parse, otherwise insert the jump both ways. -/
def csvStep (g : AdjGraph) (rec : List String) : AdjGraph :=
  if rec.length < 6 then g
  else match atoi (rec.getD 2 ""), atoi (rec.getD 3 "") with
    | some fromSystem, some toSystem => addEdgePair g fromSystem toSystem
    | _, _ => g

/-- `BuildGraphFromCSV` applied to the parsed records (the file I/O and CSV
decoding happen before the loop); the header row (index 0) is skipped. -/
def BuildGraphFromCSV (records : List (List String)) : AdjGraph :=
  (records.drop 1).foldl csvStep []

/-- The inner scan of `DeduplicateNeighbors`: keep the first occurrence of each
neighbor, in order (the Go `unique` set). -/
def dedupKeepFirst (seen : List SystemID) : List SystemID → List SystemID
  | [] => []
  | n :: ns => if n ∈ seen then dedupKeepFirst seen ns else n :: dedupKeepFirst (n :: seen) ns

/-- `DeduplicateNeighbors`: dedupe every adjacency list in place. -/
def DeduplicateNeighbors (g : AdjGraph) : AdjGraph :=
  g.map (fun kv => (kv.1, dedupKeepFirst [] kv.2))

/-- A Tripwire signature; the JSON fields not consulted by the merge
(`type`, lifetimes, creator metadata, ...) are omitted. -/
structure Signature where
  signatureID : Option String
  systemID : String
deriving DecidableEq, Repr

/-- A Tripwire wormhole record; only the two signature references are consulted
by the merge. -/
structure Wormhole where
  initialID : String
  secondaryID : String
deriving DecidableEq, Repr

/-- The Tripwire payload as consumed by the merge: the signature map and the
wormhole records (a Go map's values, here in an arbitrary list order). -/
structure TripwireData where
  signatures : List (String × Signature)
  wormholes : List Wormhole
deriving DecidableEq, Repr

/-- The parsed system id of a signature.  Go discards the `Atoi` error
(`sysA_ID, _ := strconv.Atoi(...)`), so a failed parse yields the zero value. -/
def sigSystemID (sig : Signature) : Int := (atoi sig.systemID).getD 0

/-- The validity guard of the ShortCircuitBot `AddTripwireWormholesToGraph`:
non-zero parsed system id, a present signature marker, and the marker is not
the `???` unscanned sentinel. -/
def isSigValid (sig : Signature) : Bool :=
  decide (sigSystemID sig ≠ 0) &&
    (match sig.signatureID with
     | some m => decide (m ≠ "???")
     | none => false)

/-- One iteration of the wormhole loop of the ShortCircuitBot
`AddTripwireWormholesToGraph`: resolve both signatures, apply the validity
guard, and insert the two-way jump.  (The proactive `GetSystemName` calls only
prime the name cache and do not touch the graph.) -/
def twStep (d : TripwireData) (g : AdjGraph) (wh : Wormhole) : AdjGraph :=
  match alookup d.signatures wh.initialID, alookup d.signatures wh.secondaryID with
  | some sigA, some sigB =>
      if isSigValid sigA && isSigValid sigB then
        addEdgePair g (sigSystemID sigA) (sigSystemID sigB)
      else g
  | _, _ => g

/-- `AddTripwireWormholesToGraph` (ShortCircuitBot/solar_map.go). -/
def AddTripwireWormholesToGraph (g : AdjGraph) (d : TripwireData) : AdjGraph :=
  d.wormholes.foldl (twStep d) g

/-- One iteration of the wormhole loop of the legacy
`AddTripwireWormholesToGraph` (solarmap.go): both signatures must resolve and
both system columns must parse (`errA == nil && errB == nil`); there is no
non-zero check and no `???` check. -/
def twStepLegacy (d : TripwireData) (g : AdjGraph) (wh : Wormhole) : AdjGraph :=
  match alookup d.signatures wh.initialID, alookup d.signatures wh.secondaryID with
  | some sigA, some sigB =>
      match atoi sigA.systemID, atoi sigB.systemID with
      | some sysA, some sysB => addEdgePair g sysA sysB
      | _, _ => g
  | _, _ => g

/-- The legacy `AddTripwireWormholesToGraph` (solarmap.go). -/
def AddTripwireWormholesToGraphLegacy (g : AdjGraph) (d : TripwireData) : AdjGraph :=
  d.wormholes.foldl (twStepLegacy d) g

/-- The destination field of an EVE-Scout record. -/
structure TheraDestination where
  id : SystemID
deriving DecidableEq, Repr

/-- One EVE-Scout connection as consumed by `TheraUpdater.updateGraph`.  The
struct declaration itself is not among the provided sources; the shape is
fixed by its uses (`conn.DestinationSystem != nil`, `conn.DestinationSystem.ID`)
and the spec's hub-feed record. -/
structure TheraConnection where
  destinationSystem : Option TheraDestination
deriving DecidableEq, Repr

/-- The well-known Thera system id (eve_scout.go). -/
def theraSystemID : SystemID := 31000005

/-- One iteration of the merge loop of `TheraUpdater.updateGraph`. -/
def theraStep (g : AdjGraph) (conn : TheraConnection) : AdjGraph :=
  match conn.destinationSystem with
  | some dest => addEdgePair g theraSystemID dest.id
  | none => g

/-- `TheraUpdater.updateGraph` after a successful fetch: merge every connection
bidirectionally, then deduplicate.  (On a fetch error the function returns
without touching the graph.) -/
def updateGraph (g : AdjGraph) (conns : List TheraConnection) : AdjGraph :=
  DeduplicateNeighbors (conns.foldl theraStep g)

/-- `GraphBuilder` (ShortCircuitBot/solar_map.go): CSV base, dedup, then the
Tripwire merge when a payload is present. -/
def GraphBuilder (records : List (List String)) (d : Option TripwireData) : AdjGraph :=
  let g := DeduplicateNeighbors (BuildGraphFromCSV records)
  match d with
  | some data => AddTripwireWormholesToGraph g data
  | none => g

/-- The n-batch composition of the merge that the refresh cycles perform: the
deduplicated CSV base followed by one `AddTripwireWormholesToGraph` application
per dynamic batch. -/
def buildWithBatches (records : List (List String)) (batches : List TripwireData) : AdjGraph :=
  batches.foldl AddTripwireWormholesToGraph (DeduplicateNeighbors (BuildGraphFromCSV records))

/-! ## The resolver cache (esi_client.go) -/

/-- The cached per-system record (`ESISystemInfo`); the fields not consulted by
the claims under study (`stargates`, `stations`, ...) are omitted.  Security
status is a short decimal, embedded exactly as a rational. -/
structure ESISystemInfo where
  name : String
  securityStatus : Rat
  regionID : Int
deriving DecidableEq, Repr

/-- The `systemInfoCache` map of `ESIClient`. -/
abbrev SystemInfoCache := List (SystemID × ESISystemInfo)

/-- Outcome of a detail lookup: the returned value (`none` is the error
outcome), the cache contents after the call, and how many times the external
collaborator (`makeRequest`) was invoked during the call. -/
structure DetailResult where
  value : Option ESISystemInfo
  cache : SystemInfoCache
  externalCalls : Nat
deriving DecidableEq, Repr

/-- `ESIClient.GetSystemDetails` (esi_client.go): a read of `systemInfoCache`
under the read lock; a hit returns the entry, a miss returns the error outcome.
The function contains no `makeRequest` call and no cache write. -/
def GetSystemDetails (cache : SystemInfoCache) (id : SystemID) : DetailResult :=
  { value := alookup cache id, cache := cache, externalCalls := 0 }

/-- Outcome of a name lookup, instrumented like `DetailResult`. -/
structure NameResult where
  name : String
  cache : SystemInfoCache
  externalCalls : Nat
deriving DecidableEq, Repr

/-- `ESIClient.GetSystemName` (esi_client.go): a read of `systemInfoCache`
under the read lock; a miss returns the string `Unknown`.  No `makeRequest`
call, no cache write. -/
def GetSystemName (cache : SystemInfoCache) (id : SystemID) : NameResult :=
  { name := match alookup cache id with
            | some sys => sys.name
            | none => "Unknown",
    cache := cache, externalCalls := 0 }

/-- The detail resolver a search sees, induced by a fixed cache state:
`esiClient.GetSystemDetails(id)` with the error collapsed to `none`. -/
def clientDetails (cache : SystemInfoCache) : SystemID → Option ESISystemInfo :=
  fun id => (GetSystemDetails cache id).value

/-! ## The BFS pathfinder (`FindShortestPath`, part_006) -/

/-- The reconstruction loop of `FindShortestPath`: follow the `visited` parent
map from the goal until the `-1` sentinel, collecting nodes goal-first (the Go
code reverses afterwards).  A missing key reads as `0`, the Go zero value.  The
fuel only makes the recursion structural: the caller passes `vis.length + 1`,
and in every state the search produces the chain reaches the sentinel within
that bound. -/
def walkBack (vis : List (SystemID × SystemID)) : Nat → SystemID → List SystemID
  | 0, _ => []
  | fuel + 1, t => if t = -1 then [] else t :: walkBack vis fuel ((alookup vis t).getD 0)

/-- The neighbor scan of one BFS iteration: enqueue each not-yet-visited,
not-excluded neighbor and record its parent. -/
def scanNbrs (avoid : SystemID → Bool) (cur : SystemID) :
    List SystemID → List SystemID → List (SystemID × SystemID) →
    List SystemID × List (SystemID × SystemID)
  | [], q, vis => (q, vis)
  | n :: ns, q, vis =>
      if (alookup vis n).isSome || avoid n then scanNbrs avoid cur ns q vis
      else scanNbrs avoid cur ns (q ++ [n]) ((n, cur) :: vis)

/-- The main BFS loop.  The Go loop walks an ever-growing slice through a head
index; consuming the list head is the same FIFO traversal.  Fuel bounds the
iteration count; `bfsFuel` below is shown sufficient (each iteration pops one
queue entry and every entry is enqueued at most once). -/
def bfsLoop (g : AdjGraph) (endID : SystemID) (avoid : SystemID → Bool) :
    Nat → List SystemID → List (SystemID × SystemID) → Option (List SystemID)
  | 0, _, _ => none
  | _ + 1, [], _ => none
  | fuel + 1, cur :: rest, vis =>
      if cur = endID then some (walkBack vis (vis.length + 1) cur).reverse
      else
        let st := scanNbrs avoid cur (nbrs g cur) rest vis
        bfsLoop g endID avoid fuel st.1 st.2

/-- The total length of all adjacency lists. -/
def totalNbrLen (g : AdjGraph) : Nat := (g.map (fun kv => kv.2.length)).sum

/-- Sufficient BFS fuel: at most `1 + totalNbrLen g` nodes are ever visited,
hence ever enqueued, and one extra step detects the empty queue. -/
def bfsFuel (g : AdjGraph) : Nat := totalNbrLen g + 2

/-- `FindShortestPath` (part_006): guard the endpoints against the exclusion
set, then run the BFS from `startID` with parent sentinel `-1`. -/
def FindShortestPath (g : AdjGraph) (startID endID : SystemID)
    (avoid : SystemID → Bool) : Option (List SystemID) :=
  if avoid startID || avoid endID then none
  else bfsLoop g endID avoid (bfsFuel g) [startID] [(startID, -1)]

/-! ## The weighted pathfinder (`FindPreferredPath`, two variants) -/

/-- Go `costs[id]`: a missing key reads as the zero value `0`. -/
def getCost (m : List (SystemID × Nat)) (a : SystemID) : Nat := (alookup m a).getD 0

/-- The unreachable sentinel `1e9` (exact in float64). -/
def INF : Nat := 1000000000

/-- `for id := range graph { costs[id] = 1e9 }` — iteration order of the Go map
is irrelevant since every key receives the same value. -/
def initCosts (g : AdjGraph) : List (SystemID × Nat) :=
  g.foldl (fun m kv => aset m kv.1 INF) []

/-- The per-neighbor traversal cost of `FindPreferredPath`: base 1.0, plus a
100.0 penalty when the resolved security class conflicts with the preference;
an unresolved system (`GetSystemDetails` error) incurs no penalty. -/
def stepCost (details : SystemID → Option ESISystemInfo) (preference : String)
    (n : SystemID) : Nat :=
  if preference ≠ "shortest" then
    match details n with
    | some sysInfo =>
        if preference = "safer" ∧ ¬ ((1 : Rat)/2 ≤ sysInfo.securityStatus) then 101
        else if preference = "unsafe" ∧ (1 : Rat)/2 ≤ sysInfo.securityStatus then 101
        else 1
    | none => 1
  else 1

/-- The linear minimum scan of `FindPreferredPath`: the first index whose cost
strictly improves on the running minimum, seeded with the sentinel `1e10`. -/
def findMinIdx (costs : List (SystemID × Nat)) :
    List SystemID → Nat → Nat → Option (Nat × SystemID) → Option (Nat × SystemID)
  | [], _, _, best => best
  | id :: rest, i, lowest, best =>
      if getCost costs id < lowest then
        findMinIdx costs rest (i + 1) (getCost costs id) (some (i, id))
      else findMinIdx costs rest (i + 1) lowest best

/-- The pop selection over the whole pending queue. -/
def selectMin (costs : List (SystemID × Nat)) (pq : List SystemID) :
    Option (Nat × SystemID) :=
  findMinIdx costs pq 0 10000000000 none

/-- The neighbor relaxation pass of one `FindPreferredPath` iteration: skip
excluded neighbors, otherwise relax when the new cost strictly improves,
recording the parent and enqueueing the neighbor. -/
def relaxNbrs (details : SystemID → Option ESISystemInfo) (preference : String)
    (avoid : SystemID → Bool) (cur : SystemID) :
    List SystemID → List (SystemID × Nat) → List (SystemID × SystemID) →
    List SystemID →
    List (SystemID × Nat) × List (SystemID × SystemID) × List SystemID
  | [], costs, parents, pq => (costs, parents, pq)
  | n :: ns, costs, parents, pq =>
      if avoid n then relaxNbrs details preference avoid cur ns costs parents pq
      else
        let newCost := getCost costs cur + stepCost details preference n
        if newCost < getCost costs n then
          relaxNbrs details preference avoid cur ns
            (aset costs n newCost) (aset parents n cur) (pq ++ [n])
        else relaxNbrs details preference avoid cur ns costs parents pq

/-- Path recovery of the ShortCircuitBot `FindPreferredPath` (fail closed): walk
the parent chain from the end, prepending; a missing parent aborts with nil.
The caller passes fuel `parents.length + 1`; in every state the search produces
the chain is cost-descending, hence acyclic, and fits in that bound (the Go
loop is unbounded, and on those states the two agree). -/
def rebuildPath (parents : List (SystemID × SystemID)) (startID : SystemID) :
    Nat → SystemID → List SystemID → Option (List SystemID)
  | 0, _, _ => none
  | fuel + 1, cursor, acc =>
      if cursor = startID then some (cursor :: acc)
      else match alookup parents cursor with
        | none => none
        | some p => rebuildPath parents startID fuel p (cursor :: acc)

/-- Path recovery of the legacy `FindPreferredPath` (bot_service.go):
`for at := endID; at != 0; at = parents[at]`, prepending and breaking at
`startID`; a missing parent reads as the zero value `0`, which merely stops the
loop, returning whatever was accumulated. -/
def rebuildPathLegacy (parents : List (SystemID × SystemID)) (startID : SystemID) :
    Nat → SystemID → List SystemID → List SystemID
  | 0, _, acc => acc
  | fuel + 1, cursor, acc =>
      if cursor = 0 then acc
      else if cursor = startID then cursor :: acc
      else rebuildPathLegacy parents startID fuel ((alookup parents cursor).getD 0) (cursor :: acc)

/-- The shared search loop of both `FindPreferredPath` variants (the two Go
functions are identical outside the reconstruction block, passed here as
`recon`): select the minimum-cost queue entry, pop it, stop at the end system,
otherwise relax its neighbors.  Fuel bounds the iteration count; `prefFuel`
below is shown sufficient (each iteration shrinks
`2 * total-cost + queue-length`). -/
def prefLoop (g : AdjGraph) (details : SystemID → Option ESISystemInfo)
    (preference : String) (avoid : SystemID → Bool) (endID : SystemID)
    (recon : List (SystemID × SystemID) → Option (List SystemID)) :
    Nat → List (SystemID × Nat) → List (SystemID × SystemID) → List SystemID →
    Option (List SystemID)
  | 0, _, _, _ => none
  | fuel + 1, costs, parents, pq =>
      if pq.isEmpty then none
      else match selectMin costs pq with
        | none => none
        | some (i, cur) =>
            let pq2 := pq.eraseIdx i
            if cur = endID then recon parents
            else
              let st := relaxNbrs details preference avoid cur (nbrs g cur) costs parents pq2
              prefLoop g details preference avoid endID recon fuel st.1 st.2.1 st.2.2

/-- Sufficient fuel for the weighted search: every iteration strictly decreases
`2 * (sum of stored costs) + queue length`, which starts below
`2 * INF * g.length + 1`. -/
def prefFuel (g : AdjGraph) : Nat := 2 * INF * g.length + 2

/-- `FindPreferredPath` (ShortCircuitBot/bot_service.go). -/
def FindPreferredPath (g : AdjGraph) (startID endID : SystemID)
    (details : SystemID → Option ESISystemInfo) (preference : String)
    (avoid : SystemID → Bool) : Option (List SystemID) :=
  prefLoop g details preference avoid endID
    (fun parents => rebuildPath parents startID (parents.length + 1) endID [])
    (prefFuel g) (aset (initCosts g) startID 0) [] [startID]

/-- The legacy `FindPreferredPath` (bot_service.go); its reconstruction never
returns nil from the end-system branch. -/
def FindPreferredPathLegacy (g : AdjGraph) (startID endID : SystemID)
    (details : SystemID → Option ESISystemInfo) (preference : String)
    (avoid : SystemID → Bool) : Option (List SystemID) :=
  prefLoop g details preference avoid endID
    (fun parents => some (rebuildPathLegacy parents startID (parents.length + 1) endID []))
    (prefFuel g) (aset (initCosts g) startID 0) [] [startID]

/-! ## Route predicates used to state the claims -/

/-- A route from `s` to `e` in `g` all of whose systems clear `avoid`: the list
of visited systems, start and end inclusive, consecutive systems adjacent. -/
inductive IsRoute (g : AdjGraph) (avoid : SystemID → Bool) :
    SystemID → SystemID → List SystemID → Prop
  | single (a : SystemID) (ha : avoid a = false) : IsRoute g avoid a a [a]
  | cons (a b e : SystemID) (rest : List SystemID) (hadj : b ∈ nbrs g a)
      (ha : avoid a = false) (htail : IsRoute g avoid b e rest) :
      IsRoute g avoid a e (a :: rest)

/-- Symmetry of an adjacency snapshot: each stored edge is stored both ways. -/
def SymmGraph (g : AdjGraph) : Prop :=
  ∀ a b : SystemID, b ∈ nbrs g a → a ∈ nbrs g b

/-- The endpoint pair contributed by one wormhole record under the
ShortCircuitBot validation guard, `none` when the record is rejected. -/
def validEndpoints (d : TripwireData) (wh : Wormhole) : Option (Int × Int) :=
  match alookup d.signatures wh.initialID, alookup d.signatures wh.secondaryID with
  | some sigA, some sigB =>
      if isSigValid sigA && isSigValid sigB then
        some (sigSystemID sigA, sigSystemID sigB)
      else none
  | _, _ => none

/-- The endpoint pair contributed by one wormhole record under the legacy
validation (both signatures resolve and both system columns parse). -/
def legacyEndpoints (d : TripwireData) (wh : Wormhole) : Option (Int × Int) :=
  match alookup d.signatures wh.initialID, alookup d.signatures wh.secondaryID with
  | some sigA, some sigB =>
      match atoi sigA.systemID, atoi sigB.systemID with
      | some sysA, some sysB => some (sysA, sysB)
      | _, _ => none
  | _, _ => none

/-- Edge `a-b` is contributed by some record of the batch that passes the
ShortCircuitBot validation guard. -/
def ValidEdge (d : TripwireData) (a b : SystemID) : Prop :=
  ∃ wh ∈ d.wormholes, validEndpoints d wh = some (a, b) ∨ validEndpoints d wh = some (b, a)

/-- Edge `a-b` is contributed by some record of the batch under the legacy
validation. -/
def LegacyEdge (d : TripwireData) (a b : SystemID) : Prop :=
  ∃ wh ∈ d.wormholes, legacyEndpoints d wh = some (a, b) ∨ legacyEndpoints d wh = some (b, a)

/-- Well-formedness of the `visited` parent map of the BFS: it starts as the
single root entry `(start, -1)` and grows by prepending entries `(n, p)` for a
fresh node `n` discovered from a visited node `p`, adjacent and unexcluded. -/
inductive VisWF (g : AdjGraph) (avoid : SystemID → Bool) (s : SystemID) :
    List (SystemID × SystemID) → Prop
  | init : VisWF g avoid s [(s, -1)]
  | extend (n p : SystemID) (vis : List (SystemID × SystemID))
      (hw : VisWF g avoid s vis) (hfresh : alookup vis n = none)
      (hp : (alookup vis p).isSome = true) (hadj : n ∈ nbrs g p)
      (hav : avoid n = false) : VisWF g avoid s ((n, p) :: vis)

/-- The parent chain that `walkBack` follows: from a node down to the root
entry whose stored parent is the `-1` sentinel. -/
inductive Chain (vis : List (SystemID × SystemID)) : SystemID → List SystemID → Prop
  | root (v : SystemID) (h : alookup vis v = some (-1)) : Chain vis v [v]
  | step (v p : SystemID) (c : List SystemID)
      (h : alookup vis v = some p) (hne : p ≠ -1) (hc : Chain vis p c) :
      Chain vis v (v :: c)

/-- The depth of a visited node: the number of nodes on its parent chain, read
off the executable reconstruction at the fuel the search uses. -/
def depthF (vis : List (SystemID × SystemID)) (v : SystemID) : Nat :=
  (walkBack vis (vis.length + 1) v).length

/-- The BFS loop invariant: a well-formed visited structure, a queue of
visited nodes in nondecreasing depth order spanning at most two depth levels,
processed nodes with all their admissible neighbors discovered, every
discovered node at minimal route length, and the end system still pending if
discovered. -/
structure BfsInv (g : AdjGraph) (avoid : SystemID → Bool) (s e : SystemID)
    (q : List SystemID) (vis : List (SystemID × SystemID)) : Prop where
  wf : VisWF g avoid s vis
  qmem : ∀ x ∈ q, (alookup vis x).isSome = true
  closed : ∀ v, (alookup vis v).isSome = true → v ∉ q →
    ∀ n ∈ nbrs g v, avoid n = false → (alookup vis n).isSome = true
  sorted : q.Pairwise (fun a b => depthF vis a ≤ depthF vis b)
  spread : ∀ (h : SystemID) (t : List SystemID), q = h :: t →
    ∀ x ∈ q, depthF vis x ≤ depthF vis h + 1
  minimal : ∀ v, (alookup vis v).isSome = true → ∀ r, IsRoute g avoid s v r →
    depthF vis v ≤ r.length
  endq : (alookup vis e).isSome = true → e ∈ q

/-- All admissible neighbors of `x` already carry a cost no worse than one
relaxation through `x` would give: `x` has been fully expanded at its current
cost. -/
def DoneAt (g : AdjGraph) (details : SystemID → Option ESISystemInfo)
    (preference : String) (avoid : SystemID → Bool)
    (costs : List (SystemID × Nat)) (x : SystemID) : Prop :=
  ∀ n ∈ nbrs g x, avoid n = false →
    getCost costs n ≤ getCost costs x + stepCost details preference n

/-- The sum of all stored costs, the decreasing part of the loop measure. -/
def costSum (m : List (SystemID × Nat)) : Nat := (m.map Prod.snd).sum

/-- The parent chain of the weighted search, from a node down to the start. -/
inductive PList (parents : List (SystemID × SystemID)) (startID : SystemID) :
    SystemID → List SystemID → Prop
  | base : PList parents startID startID [startID]
  | step (cursor p : SystemID) (c : List SystemID) (hne : cursor ≠ startID)
      (hp : alookup parents cursor = some p) (hc : PList parents startID p c) :
      PList parents startID cursor (cursor :: c)

/-- The full invariant of the weighted-search loop. -/
structure DjInv (g : AdjGraph) (details : SystemID → Option ESISystemInfo)
    (preference : String) (avoid : SystemID → Bool) (startID endID : SystemID)
    (costs : List (SystemID × Nat)) (parents : List (SystemID × SystemID))
    (pq : List SystemID) : Prop where
  startCost : getCost costs startID = 0
  startPar : alookup parents startID = none
  parNodup : (parents.map Prod.fst).Nodup
  entry : ∀ n p, alookup parents n = some p → avoid n = false ∧ n ∈ nbrs g p ∧
    (p = startID ∨ (alookup parents p).isSome = true) ∧
    getCost costs p < getCost costs n
  pqT : ∀ x ∈ pq, x = startID ∨ (alookup parents x).isSome = true
  costBound : ∀ x, getCost costs x ≤ INF
  donePq : ∀ x, (x = startID ∨ (alookup parents x).isSome = true) →
    x ∈ pq ∨ DoneAt g details preference avoid costs x
  endPend : endID ∈ pq ∨ ¬(endID = startID ∨ (alookup parents endID).isSome = true)
  keyTouch : ∀ x ∈ keysG g, getCost costs x < INF →
    (x = startID ∨ (alookup parents x).isSome = true)
  reach : avoid startID = false → ∀ n, (alookup parents n).isSome = true →
    ∃ r, IsRoute g avoid startID n r

/-- The accumulated traversal cost of a route: one `stepCost` per hop onto each
node after the first. -/
def routeCost (details : SystemID → Option ESISystemInfo) (preference : String) :
    List SystemID → Nat
  | [] => 0
  | [_] => 0
  | _ :: b :: rest => stepCost details preference b + routeCost details preference (b :: rest)

/-! ## Association-list and graph lemmas -/

theorem alookup_aset {κ α : Type} [DecidableEq κ] (m : List (κ × α)) (k a : κ) (v : α) :
    alookup (aset m k v) a = if k = a then some v else alookup m a := by
  induction m with
  | nil => simp [aset, alookup]
  | cons hd tl ih =>
      obtain ⟨k2, w⟩ := hd
      by_cases h1 : k2 = k
      · subst h1
        by_cases h2 : k2 = a <;> simp [aset, alookup, h2]
      · by_cases h2 : k2 = a
        · subst h2
          have : ¬ k = k2 := fun h => h1 h.symm
          simp [aset, alookup, h1, this]
        · simp [aset, alookup, h1, h2, ih]

theorem nbrs_aset (g : AdjGraph) (k a : SystemID) (v : List SystemID) :
    nbrs (aset g k v) a = if k = a then v else nbrs g a := by
  by_cases h : k = a <;> simp [nbrs, alookup_aset, h]

theorem nbrs_appendNbr (g : AdjGraph) (a b x : SystemID) :
    nbrs (appendNbr g a b) x = if a = x then nbrs g a ++ [b] else nbrs g x := by
  by_cases h : a = x <;> simp [appendNbr, nbrs_aset, h]

theorem mem_addEdgePair (g : AdjGraph) (a b x y : SystemID) :
    x ∈ nbrs (addEdgePair g a b) y ↔
      x ∈ nbrs g y ∨ (y = a ∧ x = b) ∨ (y = b ∧ x = a) := by
  unfold addEdgePair
  by_cases hb : b = y <;> by_cases ha : a = y <;>
    simp [nbrs_appendNbr, hb, ha] <;> tauto

theorem mem_dedupKeepFirst (seen l : List SystemID) (x : SystemID) :
    x ∈ dedupKeepFirst seen l ↔ x ∈ l ∧ x ∉ seen := by
  induction l generalizing seen with
  | nil => simp [dedupKeepFirst]
  | cons n ns ih =>
      by_cases h : n ∈ seen
      · rw [show dedupKeepFirst seen (n :: ns) = dedupKeepFirst seen ns from by
          simp [dedupKeepFirst, h], ih]
        simp only [List.mem_cons]
        constructor
        · rintro ⟨h1, h2⟩
          exact ⟨Or.inr h1, h2⟩
        · rintro ⟨rfl | h1, h2⟩
          · exact absurd h h2
          · exact ⟨h1, h2⟩
      · rw [show dedupKeepFirst seen (n :: ns) = n :: dedupKeepFirst (n :: seen) ns from by
          simp [dedupKeepFirst, h]]
        simp only [List.mem_cons, ih]
        constructor
        · rintro (rfl | ⟨h1, h2⟩)
          · exact ⟨Or.inl rfl, h⟩
          · refine ⟨Or.inr h1, fun hx => h2 (Or.inr hx)⟩
        · rintro ⟨rfl | h1, h2⟩
          · exact Or.inl rfl
          · by_cases hx : x = n
            · exact Or.inl hx
            · refine Or.inr ⟨h1, fun hmem => ?_⟩
              rcases hmem with h3 | h3
              · exact hx h3
              · exact h2 h3

theorem alookup_map_value {κ α β : Type} [DecidableEq κ]
    (g : List (κ × α)) (f : α → β) (a : κ) :
    alookup (g.map (fun kv => (kv.1, f kv.2))) a = (alookup g a).map f := by
  induction g with
  | nil => simp [alookup]
  | cons hd tl ih =>
      obtain ⟨k, v⟩ := hd
      by_cases h : k = a <;> simp [alookup, h, ih]

theorem mem_nbrs_dedup (g : AdjGraph) (a x : SystemID) :
    x ∈ nbrs (DeduplicateNeighbors g) a ↔ x ∈ nbrs g a := by
  unfold DeduplicateNeighbors nbrs
  rw [alookup_map_value]
  cases h : alookup g a <;> simp [mem_dedupKeepFirst]

theorem symmGraph_nil : SymmGraph [] := by
  intro a b h
  simp [nbrs, alookup] at h

theorem symmGraph_addEdgePair (g : AdjGraph) (a b : SystemID) (hg : SymmGraph g) :
    SymmGraph (addEdgePair g a b) := by
  intro x y h
  rw [mem_addEdgePair] at h ⊢
  rcases h with h | ⟨h1, h2⟩ | ⟨h1, h2⟩
  · exact Or.inl (hg x y h)
  · subst h1; subst h2; tauto
  · subst h1; subst h2; tauto

theorem symmGraph_foldl {β : Type} (step : AdjGraph → β → AdjGraph)
    (hstep : ∀ g x, SymmGraph g → SymmGraph (step g x)) :
    ∀ (l : List β) (g : AdjGraph), SymmGraph g → SymmGraph (l.foldl step g)
  | [], g, hg => hg
  | x :: xs, g, hg => symmGraph_foldl step hstep xs (step g x) (hstep g x hg)

theorem symmGraph_dedup (g : AdjGraph) (hg : SymmGraph g) :
    SymmGraph (DeduplicateNeighbors g) := by
  intro a b h
  rw [mem_nbrs_dedup] at h ⊢
  exact hg a b h

theorem symmGraph_csvStep (g : AdjGraph) (rec : List String) (hg : SymmGraph g) :
    SymmGraph (csvStep g rec) := by
  unfold csvStep
  split
  · exact hg
  · split
    · exact symmGraph_addEdgePair _ _ _ hg
    · exact hg

theorem symmGraph_twStep (d : TripwireData) (g : AdjGraph) (wh : Wormhole)
    (hg : SymmGraph g) : SymmGraph (twStep d g wh) := by
  unfold twStep
  split
  · split
    · exact symmGraph_addEdgePair _ _ _ hg
    · exact hg
  · exact hg

theorem symmGraph_theraStep (g : AdjGraph) (conn : TheraConnection)
    (hg : SymmGraph g) : SymmGraph (theraStep g conn) := by
  unfold theraStep
  split
  · exact symmGraph_addEdgePair _ _ _ hg
  · exact hg

/-- C3: every edge-inserting operation of the program — the CSV base build, the
validated Tripwire merge, and the Thera merge — inserts both directions, so
each produces a symmetric snapshot from a symmetric (or empty) input:
`b ∈ graph[a]` implies `a ∈ graph[b]`. -/
theorem publishedGraphsSymmetric :
    (∀ records, SymmGraph (BuildGraphFromCSV records)) ∧
    (∀ g d, SymmGraph g → SymmGraph (AddTripwireWormholesToGraph g d)) ∧
    (∀ g conns, SymmGraph g → SymmGraph (updateGraph g conns)) := by
  refine ⟨?_, ?_, ?_⟩
  · intro records
    exact symmGraph_foldl csvStep symmGraph_csvStep _ [] symmGraph_nil
  · intro g d hg
    exact symmGraph_foldl (twStep d) (symmGraph_twStep d) _ g hg
  · intro g conns hg
    exact symmGraph_dedup _ (symmGraph_foldl theraStep symmGraph_theraStep _ g hg)

/-- Closed instantiation of `publishedGraphsSymmetric` at concrete inputs. -/
theorem publishedGraphsSymmetric_witness :
    SymmGraph (AddTripwireWormholesToGraph []
      ⟨[("a", ⟨some "ABC-123", "31000005"⟩), ("b", ⟨some "DEF-456", "30000142"⟩)],
       [⟨"a", "b"⟩]⟩) ∧
    SymmGraph (updateGraph [] [⟨some ⟨30000142⟩⟩]) :=
  ⟨publishedGraphsSymmetric.2.1 _ _ symmGraph_nil,
   publishedGraphsSymmetric.2.2 [] [⟨some ⟨30000142⟩⟩] symmGraph_nil⟩

/-! ## Record validation and merge characterization (C4, C5) -/

theorem mem_twStep (d : TripwireData) (g : AdjGraph) (wh : Wormhole) (a b : SystemID) :
    b ∈ nbrs (twStep d g wh) a ↔
      b ∈ nbrs g a ∨ validEndpoints d wh = some (a, b) ∨ validEndpoints d wh = some (b, a) := by
  unfold twStep validEndpoints
  cases h1 : alookup d.signatures wh.initialID with
  | none => simp [h1]
  | some sigA =>
      cases h2 : alookup d.signatures wh.secondaryID with
      | none => simp [h1, h2]
      | some sigB =>
          simp only [h1, h2]
          by_cases hv : (isSigValid sigA && isSigValid sigB) = true
          · rw [if_pos hv, if_pos hv]
            simp only [mem_addEdgePair, Option.some.injEq, Prod.mk.injEq]
            constructor
            · rintro (h | ⟨rfl, rfl⟩ | ⟨rfl, rfl⟩)
              · exact Or.inl h
              · exact Or.inr (Or.inl ⟨rfl, rfl⟩)
              · exact Or.inr (Or.inr ⟨rfl, rfl⟩)
            · rintro (h | ⟨rfl, rfl⟩ | ⟨rfl, rfl⟩)
              · exact Or.inl h
              · exact Or.inr (Or.inl ⟨rfl, rfl⟩)
              · exact Or.inr (Or.inr ⟨rfl, rfl⟩)
          · rw [if_neg hv, if_neg hv]
            simp

theorem mem_twStepLegacy (d : TripwireData) (g : AdjGraph) (wh : Wormhole) (a b : SystemID) :
    b ∈ nbrs (twStepLegacy d g wh) a ↔
      b ∈ nbrs g a ∨ legacyEndpoints d wh = some (a, b) ∨ legacyEndpoints d wh = some (b, a) := by
  unfold twStepLegacy legacyEndpoints
  cases h1 : alookup d.signatures wh.initialID with
  | none => simp [h1]
  | some sigA =>
      cases h2 : alookup d.signatures wh.secondaryID with
      | none => simp [h1, h2]
      | some sigB =>
          simp only [h1, h2]
          cases h3 : atoi sigA.systemID with
          | none => simp [h3]
          | some sysA =>
              cases h4 : atoi sigB.systemID with
              | none => simp [h3, h4]
              | some sysB =>
                  simp only [h3, h4, mem_addEdgePair, Option.some.injEq, Prod.mk.injEq]
                  constructor
                  · rintro (h | ⟨rfl, rfl⟩ | ⟨rfl, rfl⟩)
                    · exact Or.inl h
                    · exact Or.inr (Or.inl ⟨rfl, rfl⟩)
                    · exact Or.inr (Or.inr ⟨rfl, rfl⟩)
                  · rintro (h | ⟨rfl, rfl⟩ | ⟨rfl, rfl⟩)
                    · exact Or.inl h
                    · exact Or.inr (Or.inl ⟨rfl, rfl⟩)
                    · exact Or.inr (Or.inr ⟨rfl, rfl⟩)

theorem mem_twFoldl (d : TripwireData) (ws : List Wormhole) (a b : SystemID) :
    ∀ g : AdjGraph, b ∈ nbrs (ws.foldl (twStep d) g) a ↔
      b ∈ nbrs g a ∨ ∃ wh ∈ ws,
        validEndpoints d wh = some (a, b) ∨ validEndpoints d wh = some (b, a) := by
  induction ws with
  | nil => simp
  | cons w ws ih =>
      intro g
      rw [List.foldl_cons, ih, mem_twStep]
      simp only [List.mem_cons]
      constructor
      · rintro ((h | h) | ⟨wh, hm, hv⟩)
        · exact Or.inl h
        · exact Or.inr ⟨w, Or.inl rfl, h⟩
        · exact Or.inr ⟨wh, Or.inr hm, hv⟩
      · rintro (h | ⟨wh, rfl | hm, hv⟩)
        · exact Or.inl (Or.inl h)
        · exact Or.inl (Or.inr hv)
        · exact Or.inr ⟨wh, hm, hv⟩

theorem mem_twFoldlLegacy (d : TripwireData) (ws : List Wormhole) (a b : SystemID) :
    ∀ g : AdjGraph, b ∈ nbrs (ws.foldl (twStepLegacy d) g) a ↔
      b ∈ nbrs g a ∨ ∃ wh ∈ ws,
        legacyEndpoints d wh = some (a, b) ∨ legacyEndpoints d wh = some (b, a) := by
  induction ws with
  | nil => simp
  | cons w ws ih =>
      intro g
      rw [List.foldl_cons, ih, mem_twStepLegacy]
      simp only [List.mem_cons]
      constructor
      · rintro ((h | h) | ⟨wh, hm, hv⟩)
        · exact Or.inl h
        · exact Or.inr ⟨w, Or.inl rfl, h⟩
        · exact Or.inr ⟨wh, Or.inr hm, hv⟩
      · rintro (h | ⟨wh, rfl | hm, hv⟩)
        · exact Or.inl (Or.inl h)
        · exact Or.inl (Or.inr hv)
        · exact Or.inr ⟨wh, hm, hv⟩

theorem mem_addTripwire (g : AdjGraph) (d : TripwireData) (a b : SystemID) :
    b ∈ nbrs (AddTripwireWormholesToGraph g d) a ↔ b ∈ nbrs g a ∨ ValidEdge d a b :=
  mem_twFoldl d d.wormholes a b g

theorem mem_addTripwireLegacy (g : AdjGraph) (d : TripwireData) (a b : SystemID) :
    b ∈ nbrs (AddTripwireWormholesToGraphLegacy g d) a ↔ b ∈ nbrs g a ∨ LegacyEdge d a b :=
  mem_twFoldlLegacy d d.wormholes a b g

/-- C4 (amended): in the ShortCircuitBot merge, the edges of the working graph
are exactly the prior edges plus one edge per record that passes the full
validation guard (non-zero resolved endpoints, present marker, not `???`);
rejecting a record therefore contributes nothing while every valid record of
the same batch is still inserted.  The legacy merge (solarmap.go) validates
only that both signatures resolve and both system columns parse - it applies
no non-zero and no `???` guard. -/
theorem tripwireRecordValidation :
    (∀ g d a b, b ∈ nbrs (AddTripwireWormholesToGraph g d) a ↔
        b ∈ nbrs g a ∨ ValidEdge d a b) ∧
    (∀ g d a b, b ∈ nbrs (AddTripwireWormholesToGraphLegacy g d) a ↔
        b ∈ nbrs g a ∨ LegacyEdge d a b) :=
  ⟨mem_addTripwire, mem_addTripwireLegacy⟩

/-- Counterexample to C4 as stated: the legacy merge accepts a wormhole record
both of whose endpoint markers are the `???` unscanned sentinel and creates
the edge `1-4` from it. -/
theorem tripwireRecordValidation_ce :
    (4 : Int) ∈ nbrs (AddTripwireWormholesToGraphLegacy []
      ⟨[("sigA", ⟨some "???", "1"⟩), ("sigB", ⟨some "???", "4"⟩)],
       [⟨"sigA", "sigB"⟩]⟩) 1 := by decide

theorem mem_batchFoldl (bs : List TripwireData) (a b : SystemID) :
    ∀ g : AdjGraph, b ∈ nbrs (bs.foldl AddTripwireWormholesToGraph g) a ↔
      b ∈ nbrs g a ∨ ∃ d ∈ bs, ValidEdge d a b := by
  induction bs with
  | nil => simp
  | cons d bs ih =>
      intro g
      rw [List.foldl_cons, ih, mem_addTripwire]
      simp only [List.mem_cons]
      constructor
      · rintro ((h | h) | ⟨d2, hm, hv⟩)
        · exact Or.inl h
        · exact Or.inr ⟨d, Or.inl rfl, h⟩
        · exact Or.inr ⟨d2, Or.inr hm, hv⟩
      · rintro (h | ⟨d2, rfl | hm, hv⟩)
        · exact Or.inl (Or.inl h)
        · exact Or.inl (Or.inr hv)
        · exact Or.inr ⟨d2, hm, hv⟩

/-- C5: the merge is idempotent and batch-order independent at the
neighbor-set level: applying the same batch twice adds nothing beyond applying
it once, and the full build (deduplicated CSV base plus a list of dynamic
batches) yields the same node-to-neighbor-set mapping for any permutation of
the batch list - in particular for two identical runs. -/
theorem mergeIdempotentOrderIndependent :
    (∀ g d a b, b ∈ nbrs (AddTripwireWormholesToGraph (AddTripwireWormholesToGraph g d) d) a ↔
        b ∈ nbrs (AddTripwireWormholesToGraph g d) a) ∧
    (∀ records bs1 bs2, bs1.Perm bs2 → ∀ a b,
        (b ∈ nbrs (buildWithBatches records bs1) a ↔
         b ∈ nbrs (buildWithBatches records bs2) a)) := by
  constructor
  · intro g d a b
    rw [mem_addTripwire, mem_addTripwire]
    tauto
  · intro records bs1 bs2 hperm a b
    unfold buildWithBatches
    rw [mem_batchFoldl, mem_batchFoldl]
    constructor
    · rintro (h | ⟨d, hm, hv⟩)
      · exact Or.inl h
      · exact Or.inr ⟨d, hperm.mem_iff.mp hm, hv⟩
    · rintro (h | ⟨d, hm, hv⟩)
      · exact Or.inl h
      · exact Or.inr ⟨d, hperm.mem_iff.mpr hm, hv⟩

/-- Closed instantiation of `mergeIdempotentOrderIndependent` with two batches
supplied in both orders. -/
theorem mergeIdempotentOrderIndependent_witness :
    (30000142 : Int) ∈ nbrs (buildWithBatches []
        [⟨[("a", ⟨some "ABC-123", "31000005"⟩), ("b", ⟨some "DEF-456", "30000142"⟩)], [⟨"a", "b"⟩]⟩,
         ⟨[], []⟩])
      31000005 ↔
    (30000142 : Int) ∈ nbrs (buildWithBatches []
        [⟨[], []⟩,
         ⟨[("a", ⟨some "ABC-123", "31000005"⟩), ("b", ⟨some "DEF-456", "30000142"⟩)], [⟨"a", "b"⟩]⟩])
      31000005 :=
  mergeIdempotentOrderIndependent.2 [] _ _ (List.Perm.swap _ _ _) 31000005 30000142

/-! ## The resolver cache claims (C6, C10) -/

/-- C6 (amended): `GetSystemDetails` is a pure cache read: for every cache
state and id it performs no external call, leaves the cache unchanged, and
returns exactly the cached entry - the error outcome (`none`) on a miss, the
stored record on a hit.  (The cache is populated by `LoadSystemCache`, not by
this lookup.) -/
theorem getSystemDetailsPureRead :
    ∀ (cache : SystemInfoCache) (id : SystemID),
      (GetSystemDetails cache id).externalCalls = 0 ∧
      (GetSystemDetails cache id).cache = cache ∧
      (GetSystemDetails cache id).value = alookup cache id :=
  fun _ _ => ⟨rfl, rfl, rfl⟩

/-- Counterexample to C6 as stated: on a cache miss `GetSystemDetails` does not
call the external collaborator once (it makes zero calls), stores nothing, and
returns the error outcome instead of a fetched result. -/
theorem getSystemDetailsPureRead_ce :
    (GetSystemDetails [] 30000142).externalCalls ≠ 1 ∧
    (GetSystemDetails [] 30000142).cache = [] ∧
    (GetSystemDetails [] 30000142).value = none := by decide

/-- C10: the by-id lookups are pure cache reads: neither `GetSystemDetails` nor
`GetSystemName` performs an external call or modifies the cache; a miss yields
the error outcome resp. the string `Unknown`, a hit yields the cached record
resp. its name. -/
theorem resolverByIdPureReads :
    ∀ (cache : SystemInfoCache) (id : SystemID),
      (GetSystemDetails cache id).externalCalls = 0 ∧
      (GetSystemDetails cache id).cache = cache ∧
      (GetSystemName cache id).externalCalls = 0 ∧
      (GetSystemName cache id).cache = cache ∧
      (alookup cache id = none →
        (GetSystemDetails cache id).value = none ∧
        (GetSystemName cache id).name = "Unknown") ∧
      (∀ sys, alookup cache id = some sys →
        (GetSystemDetails cache id).value = some sys ∧
        (GetSystemName cache id).name = sys.name) := by
  intro cache id
  refine ⟨rfl, rfl, rfl, rfl, ?_, ?_⟩
  · intro h
    simp [GetSystemDetails, GetSystemName, h]
  · intro sys h
    simp [GetSystemDetails, GetSystemName, h]

/-- Closed instantiation of `resolverByIdPureReads` on a miss. -/
theorem resolverByIdPureReads_witness :
    (GetSystemDetails [] 30000142).value = none ∧
    (GetSystemName [] 30000142).name = "Unknown" :=
  (resolverByIdPureReads [] 30000142).2.2.2.2.1 rfl

/-! ## Route lemmas -/

theorem isRoute_nonempty {g : AdjGraph} {avoid : SystemID → Bool} {s u : SystemID}
    {r : List SystemID} (h : IsRoute g avoid s u r) : r ≠ [] := by
  cases h <;> simp

theorem isRoute_length_pos {g : AdjGraph} {avoid : SystemID → Bool} {s u : SystemID}
    {r : List SystemID} (h : IsRoute g avoid s u r) : 1 ≤ r.length := by
  cases h <;> simp

theorem isRoute_avoid {g : AdjGraph} {avoid : SystemID → Bool} {s u : SystemID}
    {r : List SystemID} (h : IsRoute g avoid s u r) : ∀ x ∈ r, avoid x = false := by
  induction h with
  | single a ha => intro x hx; simp at hx; subst hx; exact ha
  | cons a b e rest hadj ha htail ih =>
      intro x hx
      rcases List.mem_cons.mp hx with rfl | hx
      · exact ha
      · exact ih x hx

theorem isRoute_head {g : AdjGraph} {avoid : SystemID → Bool} {s u : SystemID}
    {r : List SystemID} (h : IsRoute g avoid s u r) : ∃ t, r = s :: t := by
  cases h with
  | single a ha => exact ⟨[], rfl⟩
  | cons a b e rest hadj ha htail => exact ⟨rest, rfl⟩

theorem isRoute_getLast {g : AdjGraph} {avoid : SystemID → Bool} {s u : SystemID}
    {r : List SystemID} (h : IsRoute g avoid s u r) : r.getLast? = some u := by
  induction h with
  | single a ha => rfl
  | cons a b e rest hadj ha htail ih =>
      have hne := isRoute_nonempty htail
      cases rest with
      | nil => exact absurd rfl hne
      | cons y ys => rw [List.getLast?_cons_cons]; exact ih

theorem isRoute_snoc_ext {g : AdjGraph} {avoid : SystemID → Bool} {s p u : SystemID}
    {r : List SystemID} (h : IsRoute g avoid s p r) (hadj : u ∈ nbrs g p)
    (hav : avoid u = false) : IsRoute g avoid s u (r ++ [u]) := by
  revert hadj
  induction h with
  | single a ha =>
      intro hadj
      exact IsRoute.cons a u u [u] hadj ha (IsRoute.single u hav)
  | cons a b e rest hadj2 ha htail ih =>
      intro hadj
      exact IsRoute.cons a b u (rest ++ [u]) hadj2 ha (ih hadj)

theorem isRoute_snoc_inv {g : AdjGraph} {avoid : SystemID → Bool} {s u : SystemID}
    {r : List SystemID} (h : IsRoute g avoid s u r) :
    (s = u ∧ r = [s]) ∨
      ∃ r2 pv, r = r2 ++ [u] ∧ IsRoute g avoid s pv r2 ∧ u ∈ nbrs g pv ∧ avoid u = false := by
  induction h with
  | single a ha => exact Or.inl ⟨rfl, rfl⟩
  | cons a b e rest hadj ha htail ih =>
      rcases ih with ⟨heq, hrest⟩ | ⟨r2, pv, heq, hroute, hadj2, hav2⟩
      · subst heq
        subst hrest
        refine Or.inr ⟨[a], a, rfl, IsRoute.single a ha, hadj,
          isRoute_avoid htail b (by simp)⟩
      · rw [heq]
        exact Or.inr ⟨a :: r2, pv, rfl, IsRoute.cons a b pv r2 hadj ha hroute, hadj2, hav2⟩

/-! ## Identifier bookkeeping -/

theorem alookup_some_mem {κ α : Type} [DecidableEq κ] {g : List (κ × α)} {a : κ} {l : α}
    (h : alookup g a = some l) : (a, l) ∈ g := by
  induction g with
  | nil => simp [alookup] at h
  | cons hd tl ih =>
      obtain ⟨k, v⟩ := hd
      by_cases hk : k = a
      · subst hk
        simp [alookup] at h
        simp [h]
      · simp [alookup, hk] at h
        exact List.mem_cons_of_mem _ (ih h)

theorem mem_nbrs_mem_allIds {g : AdjGraph} {a x : SystemID} (h : x ∈ nbrs g a) :
    x ∈ allIds g := by
  unfold nbrs at h
  cases hl : alookup g a with
  | none => rw [hl] at h; simp at h
  | some l =>
      rw [hl] at h
      simp at h
      have hmem := alookup_some_mem hl
      clear hl
      induction g with
      | nil => simp at hmem
      | cons hd tl ih =>
          rcases List.mem_cons.mp hmem with rfl | hmem2
          · simp [allIds]
            exact Or.inr (Or.inl h)
          · simp [allIds]
            rcases ih hmem2 with h2
            simp [allIds] at h2
            tauto

theorem keysOf_eq_length (vis : List (SystemID × SystemID)) :
    (vis.map Prod.fst).length = vis.length := by simp

theorem alookup_isSome_mem_keys {κ α : Type} [DecidableEq κ] {g : List (κ × α)} {a : κ}
    (h : (alookup g a).isSome = true) : a ∈ g.map Prod.fst := by
  induction g with
  | nil => simp [alookup] at h
  | cons hd tl ih =>
      obtain ⟨k, v⟩ := hd
      by_cases hk : k = a
      · subst hk; simp
      · simp [alookup, hk] at h
        simp [ih h]

theorem nodup_subset_length {α : Type} [DecidableEq α] {l l2 : List α}
    (hn : l.Nodup) (hsub : l ⊆ l2) : l.length ≤ l2.length := by
  calc l.length = l.toFinset.card := (List.toFinset_card_of_nodup hn).symm
    _ ≤ l2.toFinset.card := Finset.card_le_card (fun x hx => by
        rw [List.mem_toFinset] at hx ⊢; exact hsub hx)
    _ ≤ l2.length := List.toFinset_card_le l2

theorem mem_nbrs_mem_flat {g : AdjGraph} {a x : SystemID} (h : x ∈ nbrs g a) :
    x ∈ (g.map Prod.snd).flatten := by
  unfold nbrs at h
  cases hl : alookup g a with
  | none => rw [hl] at h; simp at h
  | some l =>
      rw [hl] at h
      simp at h
      have hmem := alookup_some_mem hl
      rw [List.mem_flatten]
      exact ⟨l, List.mem_map.mpr ⟨(a, l), hmem, rfl⟩, h⟩

theorem totalNbrLen_eq (g : AdjGraph) :
    totalNbrLen g = (g.map Prod.snd).flatten.length := by
  rw [List.length_flatten, totalNbrLen, List.map_map]
  rfl

/-! ## The BFS visited structure -/

theorem chain_isSome {vis : List (SystemID × SystemID)} {v : SystemID} {c : List SystemID}
    (h : Chain vis v c) : (alookup vis v).isSome = true := by
  cases h <;> simp [*]

theorem chain_mem_isSome {vis : List (SystemID × SystemID)} {v : SystemID} {c : List SystemID}
    (h : Chain vis v c) : ∀ x ∈ c, (alookup vis x).isSome = true := by
  induction h with
  | root v hv => intro x hx; simp at hx; subst hx; simp [hv]
  | step v p c hv hne hc ih =>
      intro x hx
      rcases List.mem_cons.mp hx with rfl | hx
      · simp [hv]
      · exact ih x hx

theorem chain_weaken {vis : List (SystemID × SystemID)} {v n p2 : SystemID}
    {c : List SystemID} (h : Chain vis v c) (hfresh : alookup vis n = none) :
    Chain ((n, p2) :: vis) v c := by
  induction h with
  | root v hv =>
      refine Chain.root v ?_
      have hne : n ≠ v := fun he => by rw [he] at hfresh; rw [hfresh] at hv; cases hv
      simp [alookup, hne, hv]
  | step v p c hv hne hc ih =>
      refine Chain.step v p c ?_ hne ih
      have hnv : n ≠ v := fun he => by rw [he] at hfresh; rw [hfresh] at hv; cases hv
      simp [alookup, hnv, hv]

theorem chain_unique {vis : List (SystemID × SystemID)} {v : SystemID}
    {c1 c2 : List SystemID} (h1 : Chain vis v c1) (h2 : Chain vis v c2) : c1 = c2 := by
  induction h1 generalizing c2 with
  | root v hv =>
      cases h2 with
      | root => rfl
      | step _ p _ hv2 hne2 =>
          rw [hv] at hv2
          cases hv2
          exact absurd rfl hne2
  | step v p c hv hne hc ih =>
      cases h2 with
      | root _ hv2 =>
          rw [hv] at hv2
          cases hv2
          exact absurd rfl hne
      | step _ p2 c2 hv2 hne2 hc2 =>
          rw [hv] at hv2
          cases hv2
          rw [ih hc2]

theorem walkBack_neg1 (vis : List (SystemID × SystemID)) (fuel : Nat) :
    walkBack vis fuel (-1) = [] := by
  cases fuel <;> simp [walkBack]

theorem walkBack_eq_of_chain {vis : List (SystemID × SystemID)} {v : SystemID}
    {c : List SystemID} (h : Chain vis v c) (hne : ∀ x ∈ c, x ≠ (-1 : Int)) :
    ∀ fuel, c.length ≤ fuel → walkBack vis fuel v = c := by
  induction h with
  | root v hv =>
      intro fuel hf
      cases fuel with
      | zero => simp at hf
      | succ f =>
          have : v ≠ (-1 : Int) := hne v (by simp)
          simp [walkBack, this, hv, walkBack_neg1]
  | step v p c hv hnep hc ih =>
      intro fuel hf
      cases fuel with
      | zero => simp at hf
      | succ f =>
          have hvne : v ≠ (-1 : Int) := hne v (by simp)
          have hcf : c.length ≤ f := by simp at hf; omega
          simp only [walkBack, if_neg hvne, hv, Option.getD_some]
          rw [ih (fun x hx => hne x (List.mem_cons_of_mem _ hx)) f hcf]

theorem alookup_cons_ne {κ α : Type} [DecidableEq κ] {n x : κ} (p : α)
    (vis : List (κ × α)) (h : n ≠ x) : alookup ((n, p) :: vis) x = alookup vis x := by
  simp [alookup, h]

theorem alookup_cons_self {κ α : Type} [DecidableEq κ] (n : κ) (p : α)
    (vis : List (κ × α)) : alookup ((n, p) :: vis) n = some p := by
  simp [alookup]

theorem ne_of_isSome_of_fresh {κ α : Type} [DecidableEq κ] {vis : List (κ × α)}
    {x n : κ} (hx : (alookup vis x).isSome = true) (hn : alookup vis n = none) :
    x ≠ n := by
  intro he
  rw [he, hn] at hx
  cases hx

theorem mem_keys_isSome {κ α : Type} [DecidableEq κ] {g : List (κ × α)} {a : κ}
    (h : a ∈ g.map Prod.fst) : (alookup g a).isSome = true := by
  induction g with
  | nil => simp at h
  | cons hd tl ih =>
      obtain ⟨k, v⟩ := hd
      by_cases hk : k = a
      · simp [alookup, hk]
      · simp only [List.map_cons, List.mem_cons] at h
        rcases h with h | h
        · exact absurd h.symm hk
        · rw [alookup_cons_ne _ _ hk]
          exact ih h

theorem viswf_lookup_start {g : AdjGraph} {avoid : SystemID → Bool} {s : SystemID}
    {vis : List (SystemID × SystemID)} (h : VisWF g avoid s vis) :
    alookup vis s = some (-1) := by
  induction h with
  | init => simp [alookup]
  | extend n p vis hw hfresh hp hadj hav ih =>
      have hne : n ≠ s := (ne_of_isSome_of_fresh (by simp [ih]) hfresh).symm
      rw [alookup_cons_ne _ _ hne, ih]

theorem viswf_key_ne_neg1 {g : AdjGraph} {avoid : SystemID → Bool} {s : SystemID}
    {vis : List (SystemID × SystemID)} (hid : (-1 : Int) ∉ allIds g) (hs : s ≠ -1)
    (h : VisWF g avoid s vis) :
    ∀ v, (alookup vis v).isSome = true → v ≠ -1 := by
  induction h with
  | init =>
      intro v hv
      by_cases hsv : s = v
      · exact hsv ▸ hs
      · rw [show alookup [(s, -1)] v = none from by simp [alookup, hsv]] at hv
        cases hv
  | extend n p vis hw hfresh hp hadj hav ih =>
      intro v hv
      by_cases hnv : n = v
      · subst hnv
        intro he
        exact hid (he ▸ mem_nbrs_mem_allIds hadj)
      · rw [alookup_cons_ne _ _ hnv] at hv
        exact ih v hv

theorem viswf_entry {g : AdjGraph} {avoid : SystemID → Bool} {s : SystemID}
    {vis : List (SystemID × SystemID)} (h : VisWF g avoid s vis) :
    ∀ v p, alookup vis v = some p →
      (v = s ∧ p = -1) ∨
      ((alookup vis p).isSome = true ∧ v ∈ nbrs g p ∧ avoid v = false) := by
  induction h with
  | init =>
      intro v p hv
      by_cases hsv : s = v
      · subst hsv
        rw [alookup_cons_self] at hv
        cases hv
        exact Or.inl ⟨rfl, rfl⟩
      · rw [show alookup [(s, -1)] v = none from by simp [alookup, hsv]] at hv
        cases hv
  | extend n pn vis hw hfresh hp hadj hav ih =>
      intro v p hv
      by_cases hnv : n = v
      · subst hnv
        rw [alookup_cons_self] at hv
        cases hv
        refine Or.inr ⟨?_, hadj, hav⟩
        have hne : pn ≠ n := ne_of_isSome_of_fresh hp hfresh
        rw [alookup_cons_ne _ _ (fun he => hne he.symm)]
        exact hp
      · rw [alookup_cons_ne _ _ hnv] at hv
        rcases ih v p hv with ⟨rfl, rfl⟩ | ⟨h1, h2, h3⟩
        · exact Or.inl ⟨rfl, rfl⟩
        · refine Or.inr ⟨?_, h2, h3⟩
          have hne : p ≠ n := ne_of_isSome_of_fresh h1 hfresh
          rw [alookup_cons_ne _ _ (fun he => hne he.symm)]
          exact h1

theorem viswf_chain {g : AdjGraph} {avoid : SystemID → Bool} {s : SystemID}
    {vis : List (SystemID × SystemID)} (hid : (-1 : Int) ∉ allIds g) (hs : s ≠ -1)
    (h : VisWF g avoid s vis) :
    ∀ v, (alookup vis v).isSome = true →
      ∃ c, Chain vis v c ∧ c.Nodup ∧ ∀ x ∈ c, (alookup vis x).isSome = true := by
  induction h with
  | init =>
      intro v hv
      by_cases hsv : s = v
      · subst hsv
        refine ⟨[s], Chain.root s (by simp [alookup]), by simp, ?_⟩
        intro x hx
        simp at hx
        subst hx
        simp [alookup]
      · rw [show alookup [(s, -1)] v = none from by simp [alookup, hsv]] at hv
        cases hv
  | extend n p vis hw hfresh hp hadj hav ih =>
      intro v hv
      by_cases hnv : n = v
      · subst hnv
        obtain ⟨cp, hcp, hnd, hmem⟩ := ih p hp
        have hpne : p ≠ -1 := viswf_key_ne_neg1 hid hs hw p hp
        refine ⟨n :: cp, Chain.step n p cp (alookup_cons_self n p vis) hpne
          (chain_weaken hcp hfresh), ?_, ?_⟩
        · rw [List.nodup_cons]
          exact ⟨fun hmem2 => (ne_of_isSome_of_fresh (hmem n hmem2) hfresh) rfl, hnd⟩
        · intro x hx
          rcases List.mem_cons.mp hx with rfl | hx
          · simp [alookup_cons_self]
          · have hxn : x ≠ n := ne_of_isSome_of_fresh (hmem x hx) hfresh
            rw [alookup_cons_ne _ _ (fun he => hxn he.symm)]
            exact hmem x hx
      · rw [alookup_cons_ne _ _ hnv] at hv
        obtain ⟨c, hc, hnd, hmem⟩ := ih v hv
        refine ⟨c, chain_weaken hc hfresh, hnd, ?_⟩
        intro x hx
        have hxn : x ≠ n := ne_of_isSome_of_fresh (hmem x hx) hfresh
        rw [alookup_cons_ne _ _ (fun he => hxn he.symm)]
        exact hmem x hx

theorem viswf_keys {g : AdjGraph} {avoid : SystemID → Bool} {s : SystemID}
    {vis : List (SystemID × SystemID)} (h : VisWF g avoid s vis) :
    (vis.map Prod.fst).Nodup ∧ vis.map Prod.fst ⊆ s :: (g.map Prod.snd).flatten := by
  induction h with
  | init =>
      refine ⟨by simp, ?_⟩
      intro x hx
      simp at hx
      simp [hx]
  | extend n p vis hw hfresh hp hadj hav ih =>
      obtain ⟨hnd, hsub⟩ := ih
      constructor
      · simp only [List.map_cons, List.nodup_cons]
        refine ⟨fun hmem => ?_, hnd⟩
        exact (ne_of_isSome_of_fresh (mem_keys_isSome hmem) hfresh) rfl
      · intro x hx
        simp only [List.map_cons, List.mem_cons] at hx
        rcases hx with rfl | hx
        · exact List.mem_cons_of_mem _ (mem_nbrs_mem_flat hadj)
        · exact hsub hx

theorem viswf_length {g : AdjGraph} {avoid : SystemID → Bool} {s : SystemID}
    {vis : List (SystemID × SystemID)} (h : VisWF g avoid s vis) :
    vis.length ≤ totalNbrLen g + 1 := by
  obtain ⟨hnd, hsub⟩ := viswf_keys h
  have hle := nodup_subset_length hnd hsub
  rw [keysOf_eq_length] at hle
  simp only [List.length_cons] at hle
  rw [totalNbrLen_eq]
  omega

theorem chain_subset_keys {vis : List (SystemID × SystemID)} {v : SystemID}
    {c : List SystemID} (h : Chain vis v c) : ∀ x ∈ c, x ∈ vis.map Prod.fst :=
  fun x hx => alookup_isSome_mem_keys (chain_mem_isSome h x hx)

theorem depthF_eq_chain {g : AdjGraph} {avoid : SystemID → Bool} {s : SystemID}
    {vis : List (SystemID × SystemID)} {v : SystemID} {c : List SystemID}
    (hid : (-1 : Int) ∉ allIds g) (hs : s ≠ -1) (hw : VisWF g avoid s vis)
    (hc : Chain vis v c) : depthF vis v = c.length := by
  obtain ⟨c2, hc2, hnd, hmem⟩ := viswf_chain hid hs hw v (chain_isSome hc)
  have heq : c = c2 := chain_unique hc hc2
  subst heq
  have hlen : c.length ≤ vis.length := by
    have hle := nodup_subset_length hnd (fun x hx => chain_subset_keys hc x hx)
    rw [keysOf_eq_length] at hle
    exact hle
  have hne : ∀ x ∈ c, x ≠ (-1 : Int) :=
    fun x hx => viswf_key_ne_neg1 hid hs hw x (hmem x hx)
  unfold depthF
  rw [walkBack_eq_of_chain hc hne (vis.length + 1) (by omega)]

theorem chain_realizes {g : AdjGraph} {avoid : SystemID → Bool} {s : SystemID}
    {vis : List (SystemID × SystemID)} {v : SystemID} {c : List SystemID}
    (hid : (-1 : Int) ∉ allIds g) (hs : s ≠ -1) (hsa : avoid s = false)
    (hw : VisWF g avoid s vis) (hc : Chain vis v c) :
    IsRoute g avoid s v c.reverse := by
  induction hc with
  | root v hv =>
      rcases viswf_entry hw v (-1) hv with ⟨heq, _⟩ | ⟨h1, h2, h3⟩
      · subst heq
        simpa using IsRoute.single _ hsa
      · exact absurd rfl (viswf_key_ne_neg1 hid hs hw (-1) h1)
  | step v p c hv hne hc2 ih =>
      rcases viswf_entry hw v p hv with ⟨rfl, rfl⟩ | ⟨h1, h2, h3⟩
      · exact absurd rfl hne
      · simp only [List.reverse_cons]
        exact isRoute_snoc_ext ih h2 h3

theorem alookup_cons_none {κ α : Type} [DecidableEq κ] {k a : κ} {v : α}
    {l : List (κ × α)} (h : alookup ((k, v) :: l) a = none) : alookup l a = none := by
  by_cases hk : k = a
  · subst hk
    rw [alookup_cons_self] at h
    cases h
  · rw [alookup_cons_ne _ _ hk] at h
    exact h

theorem chain_weaken_multi {vis vis2 : List (SystemID × SystemID)} {v cur : SystemID}
    {new : List SystemID} {c : List SystemID}
    (hlk : ∀ x, alookup vis2 x = if x ∈ new then some cur else alookup vis x)
    (hfresh : ∀ n ∈ new, alookup vis n = none)
    (hc : Chain vis v c) : Chain vis2 v c := by
  induction hc with
  | root v hv =>
      refine Chain.root v ?_
      rw [hlk v, if_neg (fun hmem => by rw [hfresh v hmem] at hv; cases hv)]
      exact hv
  | step v p c hv hne hc2 ih =>
      refine Chain.step v p c ?_ hne ih
      rw [hlk v, if_neg (fun hmem => by rw [hfresh v hmem] at hv; cases hv)]
      exact hv

theorem walkBack_viswf {g : AdjGraph} {avoid : SystemID → Bool} {s : SystemID}
    {vis : List (SystemID × SystemID)} {v : SystemID} {c : List SystemID}
    (hid : (-1 : Int) ∉ allIds g) (hs : s ≠ -1) (hw : VisWF g avoid s vis)
    (hc : Chain vis v c) : walkBack vis (vis.length + 1) v = c := by
  obtain ⟨c2, hc2, hnd, hmem⟩ := viswf_chain hid hs hw v (chain_isSome hc)
  have heq : c = c2 := chain_unique hc hc2
  subst heq
  have hlen : c.length ≤ vis.length := by
    have hle := nodup_subset_length hnd (fun x hx => chain_subset_keys hc x hx)
    rw [keysOf_eq_length] at hle
    exact hle
  have hne : ∀ x ∈ c, x ≠ (-1 : Int) :=
    fun x hx => viswf_key_ne_neg1 hid hs hw x (hmem x hx)
  exact walkBack_eq_of_chain hc hne (vis.length + 1) (by omega)

theorem scanNbrs_spec {g : AdjGraph} {avoid : SystemID → Bool} {s cur : SystemID} :
    ∀ (ns q : List SystemID) (vis : List (SystemID × SystemID)),
      VisWF g avoid s vis → (alookup vis cur).isSome = true →
      (∀ x ∈ ns, x ∈ nbrs g cur) →
      ∃ new : List SystemID,
        (scanNbrs avoid cur ns q vis).1 = q ++ new ∧
        VisWF g avoid s (scanNbrs avoid cur ns q vis).2 ∧
        (scanNbrs avoid cur ns q vis).2.length = vis.length + new.length ∧
        (∀ x, alookup (scanNbrs avoid cur ns q vis).2 x =
          if x ∈ new then some cur else alookup vis x) ∧
        (∀ n ∈ new, avoid n = false ∧ alookup vis n = none) ∧
        (∀ n ∈ ns, avoid n = false →
          (alookup (scanNbrs avoid cur ns q vis).2 n).isSome = true) := by
  intro ns
  induction ns with
  | nil =>
      intro q vis hw hcur hns
      refine ⟨[], by simp [scanNbrs], hw, by simp [scanNbrs], ?_, by simp, by simp⟩
      intro x
      simp [scanNbrs]
  | cons n ns ih =>
      intro q vis hw hcur hns
      by_cases hcond : ((alookup vis n).isSome || avoid n) = true
      · have hstep : scanNbrs avoid cur (n :: ns) q vis = scanNbrs avoid cur ns q vis := by
          simp [scanNbrs, hcond]
        obtain ⟨new, f1, f2, f3, f4, f5, f6⟩ :=
          ih q vis hw hcur (fun x hx => hns x (List.mem_cons_of_mem n hx))
        rw [hstep]
        refine ⟨new, f1, f2, f3, f4, f5, ?_⟩
        intro m hm hav
        rcases List.mem_cons.mp hm with rfl | hm
        · have hsome : (alookup vis m).isSome = true := by
            rcases Bool.or_eq_true_iff.mp hcond with h | h
            · exact h
            · rw [hav] at h; cases h
          rw [f4 m]
          by_cases hmem : m ∈ new
          · simp [hmem]
          · rw [if_neg hmem]; exact hsome
        · exact f6 m hm hav
      · have hfalse : ((alookup vis n).isSome || avoid n) = false := by
          cases hb : ((alookup vis n).isSome || avoid n) with
          | false => rfl
          | true => exact absurd hb hcond
        obtain ⟨hsome, havoid⟩ := Bool.or_eq_false_iff.mp hfalse
        have hnone : alookup vis n = none := by
          cases hl : alookup vis n with
          | none => rfl
          | some v2 => rw [hl] at hsome; cases hsome
        have hstep : scanNbrs avoid cur (n :: ns) q vis =
            scanNbrs avoid cur ns (q ++ [n]) ((n, cur) :: vis) := by
          simp [scanNbrs, hsome, havoid]
        have hw2 : VisWF g avoid s ((n, cur) :: vis) :=
          VisWF.extend n cur vis hw hnone hcur (hns n (by simp)) havoid
        have hcur2 : (alookup ((n, cur) :: vis) cur).isSome = true := by
          have hne : cur ≠ n := ne_of_isSome_of_fresh hcur hnone
          rw [alookup_cons_ne _ _ (fun he => hne he.symm)]
          exact hcur
        obtain ⟨new2, f1, f2, f3, f4, f5, f6⟩ :=
          ih (q ++ [n]) ((n, cur) :: vis) hw2 hcur2
            (fun x hx => hns x (List.mem_cons_of_mem n hx))
        rw [hstep]
        refine ⟨n :: new2, ?_, f2, ?_, ?_, ?_, ?_⟩
        · rw [f1]
          simp
        · rw [f3]
          simp only [List.length_cons]
          omega
        · intro x
          rw [f4 x]
          by_cases hxn : x ∈ new2
          · rw [if_pos hxn, if_pos (List.mem_cons_of_mem n hxn)]
          · rw [if_neg hxn]
            by_cases hxe : x = n
            · subst hxe
              rw [alookup_cons_self, if_pos (by simp)]
            · rw [alookup_cons_ne _ _ (fun he => hxe he.symm),
                if_neg (by simp [hxe, hxn])]
        · intro m hm
          rcases List.mem_cons.mp hm with rfl | hm
          · exact ⟨havoid, hnone⟩
          · obtain ⟨hm1, hm2⟩ := f5 m hm
            exact ⟨hm1, alookup_cons_none hm2⟩
        · intro m hm hav
          rcases List.mem_cons.mp hm with rfl | hm
          · rw [f4 m]
            by_cases hmem : m ∈ new2
            · simp [hmem]
            · rw [if_neg hmem, alookup_cons_self]
              rfl
          · exact f6 m hm hav

theorem route_lower_bound {g : AdjGraph} {avoid : SystemID → Bool} {s : SystemID}
    {vis : List (SystemID × SystemID)} {q : List SystemID} (dmin : Nat)
    (hw : VisWF g avoid s vis)
    (hclosed : ∀ v, (alookup vis v).isSome = true → v ∉ q →
      ∀ n ∈ nbrs g v, avoid n = false → (alookup vis n).isSome = true)
    (hmin : ∀ v, (alookup vis v).isSome = true → ∀ r, IsRoute g avoid s v r →
      depthF vis v ≤ r.length)
    (hhead : ∀ x ∈ q, dmin ≤ depthF vis x) :
    ∀ (k : Nat) (r : List SystemID) (u : SystemID), r.length ≤ k →
      IsRoute g avoid s u r → alookup vis u = none → dmin + 1 ≤ r.length := by
  intro k
  induction k with
  | zero =>
      intro r u hk hr hu
      have := isRoute_length_pos hr
      omega
  | succ k ih =>
      intro r u hk hr hu
      rcases isRoute_snoc_inv hr with ⟨heq, hrs⟩ | ⟨r2, pv, heq, hroute, hadj, hav⟩
      · subst heq
        rw [viswf_lookup_start hw] at hu
        cases hu
      · subst heq
        cases hpv : alookup vis pv with
        | some pp =>
            have hpvs : (alookup vis pv).isSome = true := by simp [hpv]
            by_cases hq : pv ∈ q
            · have h1 := hhead pv hq
              have h2 := hmin pv hpvs r2 hroute
              simp only [List.length_append, List.length_cons]
              omega
            · have := hclosed pv hpvs hq u hadj hav
              rw [hu] at this
              cases this
        | none =>
            have hlen2 : r2.length ≤ k := by
              have := isRoute_length_pos hroute
              simp only [List.length_append, List.length_cons] at hk
              omega
            have := ih r2 pv hlen2 hroute hpv
            simp only [List.length_append, List.length_cons]
            omega

theorem pairwise_of_const_depth {l : List SystemID} {d : SystemID → Nat} {c : Nat}
    (h : ∀ x ∈ l, d x = c) : l.Pairwise (fun a b => d a ≤ d b) := by
  induction l with
  | nil => exact List.Pairwise.nil
  | cons x xs ih =>
      rw [List.pairwise_cons]
      refine ⟨fun b hb => ?_, ih (fun y hy => h y (List.mem_cons_of_mem x hy))⟩
      rw [h x (by simp), h b (List.mem_cons_of_mem x hb)]

theorem pairwise_congr_depth {l : List SystemID} {d1 d2 : SystemID → Nat}
    (h : ∀ x ∈ l, d2 x = d1 x) (hp : l.Pairwise (fun a b => d1 a ≤ d1 b)) :
    l.Pairwise (fun a b => d2 a ≤ d2 b) := by
  induction l with
  | nil => exact List.Pairwise.nil
  | cons x xs ih =>
      rw [List.pairwise_cons] at hp ⊢
      refine ⟨fun b hb => ?_, ih (fun y hy => h y (List.mem_cons_of_mem x hy)) hp.2⟩
      rw [h x (by simp), h b (List.mem_cons_of_mem x hb)]
      exact hp.1 b hb

theorem bfs_empty_no_route {g : AdjGraph} {avoid : SystemID → Bool} {s e : SystemID}
    {vis : List (SystemID × SystemID)}
    (inv : BfsInv g avoid s e [] vis) : ¬ ∃ r, IsRoute g avoid s e r := by
  rintro ⟨r, hr⟩
  have hu : alookup vis e = none := by
    cases hl : alookup vis e with
    | some p =>
        have := inv.endq (by simp [hl])
        simp at this
    | none => rfl
  have hlb := @route_lower_bound _ _ _ _ ([] : List SystemID) r.length inv.wf
    (fun v hv _ n hn han => inv.closed v hv (by simp) n hn han)
    inv.minimal (fun x hx => by cases hx) r.length r e (le_refl _) hr hu
  omega

theorem bfsLoop_correct {g : AdjGraph} {avoid : SystemID → Bool} {s e : SystemID}
    (hid : (-1 : Int) ∉ allIds g) (hs : s ≠ -1) (hsa : avoid s = false) :
    ∀ (fuel : Nat) (q : List SystemID) (vis : List (SystemID × SystemID)),
      BfsInv g avoid s e q vis →
      q.length + (totalNbrLen g + 1) ≤ fuel + vis.length →
      (∀ p, bfsLoop g e avoid fuel q vis = some p →
          IsRoute g avoid s e p ∧ ∀ r, IsRoute g avoid s e r → p.length ≤ r.length) ∧
      ((∃ r, IsRoute g avoid s e r) → ∃ p, bfsLoop g e avoid fuel q vis = some p) := by
  intro fuel
  induction fuel with
  | zero =>
      intro q vis inv hfuel
      constructor
      · intro p hp
        simp [bfsLoop] at hp
      · intro hex
        exfalso
        have hvl : vis.length ≤ totalNbrLen g + 1 := viswf_length inv.wf
        have hq : q = [] := by
          cases q with
          | nil => rfl
          | cons x xs => simp at hfuel; omega
        subst hq
        exact bfs_empty_no_route inv hex
  | succ fuel ih =>
      intro q vis inv hfuel
      cases q with
      | nil =>
          constructor
          · intro p hp
            simp [bfsLoop] at hp
          · intro hex
            exact absurd hex (bfs_empty_no_route inv)
      | cons cur rest =>
          by_cases hce : cur = e
          · subst hce
            have hcs : (alookup vis cur).isSome = true := inv.qmem cur (by simp)
            obtain ⟨c, hc, hnd, hmem⟩ := viswf_chain hid hs inv.wf cur hcs
            have hwb : walkBack vis (vis.length + 1) cur = c :=
              walkBack_viswf hid hs inv.wf hc
            have hres : bfsLoop g cur avoid (fuel + 1) (cur :: rest) vis =
                some (walkBack vis (vis.length + 1) cur).reverse := by
              simp [bfsLoop]
            constructor
            · intro p hp
              rw [hres] at hp
              cases hp
              rw [hwb]
              refine ⟨chain_realizes hid hs hsa inv.wf hc, ?_⟩
              intro r hr
              have h1 := inv.minimal cur hcs r hr
              have h2 := depthF_eq_chain hid hs inv.wf hc
              simp only [List.length_reverse]
              omega
            · intro _
              exact ⟨_, hres⟩
          · have hcs : (alookup vis cur).isSome = true := inv.qmem cur (by simp)
            obtain ⟨new, f1, f2, f3, f4, f5, f6⟩ :=
              @scanNbrs_spec _ _ s _ (nbrs g cur) rest vis inv.wf hcs (fun x hx => hx)
            set st := scanNbrs avoid cur (nbrs g cur) rest vis with hst
            have hres : bfsLoop g e avoid (fuel + 1) (cur :: rest) vis =
                bfsLoop g e avoid fuel st.1 st.2 := by
              simp [bfsLoop, hce]
            -- depth stability and depth of new nodes
            obtain ⟨ccur, hccur, _, _⟩ := viswf_chain hid hs inv.wf cur hcs
            have hfreshnew : ∀ n ∈ new, alookup vis n = none := fun n hn => (f5 n hn).2
            have hstable : ∀ x, (alookup vis x).isSome = true →
                depthF st.2 x = depthF vis x := by
              intro x hx
              obtain ⟨cx, hcx, _, _⟩ := viswf_chain hid hs inv.wf x hx
              have hcx2 : Chain st.2 x cx := chain_weaken_multi f4 hfreshnew hcx
              rw [depthF_eq_chain hid hs f2 hcx2, depthF_eq_chain hid hs inv.wf hcx]
            have hdnew : ∀ n ∈ new, depthF st.2 n = depthF vis cur + 1 := by
              intro n hn
              have hcn : Chain st.2 n (n :: ccur) := by
                refine Chain.step n cur ccur ?_ ?_
                  (chain_weaken_multi f4 hfreshnew hccur)
                · rw [f4 n, if_pos hn]
                · exact viswf_key_ne_neg1 hid hs inv.wf cur hcs
              rw [depthF_eq_chain hid hs f2 hcn]
              simp only [List.length_cons]
              rw [depthF_eq_chain hid hs inv.wf hccur]
            have hmono : ∀ x, (alookup vis x).isSome = true →
                (alookup st.2 x).isSome = true := by
              intro x hx
              rw [f4 x]
              by_cases hxm : x ∈ new
              · simp [hxm]
              · rw [if_neg hxm]; exact hx
            have hchar : ∀ x, (alookup st.2 x).isSome = true →
                x ∈ new ∨ (alookup vis x).isSome = true := by
              intro x hx
              by_cases hxm : x ∈ new
              · exact Or.inl hxm
              · rw [f4 x, if_neg hxm] at hx
                exact Or.inr hx
            have hsortcons := List.pairwise_cons.mp inv.sorted
            have hrest_le : ∀ x ∈ rest, depthF vis cur ≤ depthF vis x := hsortcons.1
            have hspread : ∀ x ∈ cur :: rest, depthF vis x ≤ depthF vis cur + 1 :=
              inv.spread cur rest rfl
            -- the new-node lower bound from the pre-state
            have hlb : ∀ (r : List SystemID) (u : SystemID), IsRoute g avoid s u r →
                alookup vis u = none → depthF vis cur + 1 ≤ r.length := by
              intro r u hr hu
              exact @route_lower_bound _ _ _ _ (cur :: rest) (depthF vis cur) inv.wf
                inv.closed inv.minimal
                (fun x hx => by
                  rcases List.mem_cons.mp hx with rfl | hx
                  · exact le_refl _
                  · exact hrest_le x hx)
                r.length r u (le_refl _) hr hu
            have inv2 : BfsInv g avoid s e st.1 st.2 := by
              refine ⟨f2, ?_, ?_, ?_, ?_, ?_, ?_⟩
              · intro x hx
                rw [f1] at hx
                rcases List.mem_append.mp hx with hx | hx
                · exact hmono x (inv.qmem x (List.mem_cons_of_mem cur hx))
                · rw [f4 x, if_pos hx]; rfl
              · intro v hv hvq n hn han
                rcases hchar v hv with hvm | hv2
                · exact absurd (f1 ▸ List.mem_append.mpr (Or.inr hvm)) hvq
                · by_cases hvc : v = cur
                  · subst hvc
                    exact f6 n hn han
                  · have hvq2 : v ∉ cur :: rest := by
                      intro hmem
                      rcases List.mem_cons.mp hmem with rfl | hmem
                      · exact hvc rfl
                      · exact hvq (f1 ▸ List.mem_append.mpr (Or.inl hmem))
                    exact hmono n (inv.closed v hv2 hvq2 n hn han)
              · rw [f1, List.pairwise_append]
                refine ⟨?_, ?_, ?_⟩
                · exact pairwise_congr_depth
                    (fun x hx => hstable x (inv.qmem x (List.mem_cons_of_mem cur hx)))
                    hsortcons.2
                · exact pairwise_of_const_depth hdnew
                · intro a ha b hb
                  rw [hstable a (inv.qmem a (List.mem_cons_of_mem cur ha)), hdnew b hb]
                  exact hspread a (List.mem_cons_of_mem cur ha)
              · intro h t hq x hx
                rw [f1] at hq hx
                cases rest with
                | nil =>
                    simp only [List.nil_append] at hq hx
                    have hhnew : h ∈ new := by rw [hq]; simp
                    rw [hdnew x hx, hdnew h hhnew]
                    omega
                | cons r0 rt2 =>
                    simp only [List.cons_append] at hq
                    have hh : r0 = h := ((List.cons.injEq r0 (rt2 ++ new) h t).mp hq).1
                    subst hh
                    have hr0 : depthF vis cur ≤ depthF vis r0 := hrest_le r0 (by simp)
                    have hh2 : depthF st.2 r0 = depthF vis r0 :=
                      hstable r0 (inv.qmem r0 (by simp))
                    rcases List.mem_append.mp hx with hx | hx
                    · rw [hstable x (inv.qmem x (List.mem_cons_of_mem cur hx)), hh2]
                      have hsp := hspread x (List.mem_cons_of_mem cur hx)
                      omega
                    · rw [hdnew x hx, hh2]
                      omega
              · intro v hv r hr
                rcases hchar v hv with hvm | hv2
                · rw [hdnew v hvm]
                  exact hlb r v hr ((f5 v hvm).2)
                · rw [hstable v hv2]
                  exact inv.minimal v hv2 r hr
              · intro hv
                rcases hchar e hv with hvm | hv2
                · rw [f1]
                  exact List.mem_append.mpr (Or.inr hvm)
                · have := inv.endq hv2
                  rcases List.mem_cons.mp this with rfl | hmem
                  · exact absurd rfl hce
                  · rw [f1]
                    exact List.mem_append.mpr (Or.inl hmem)
            have hfuel2 : st.1.length + (totalNbrLen g + 1) ≤ fuel + st.2.length := by
              have hq1 : st.1.length = rest.length + new.length := by
                rw [f1, List.length_append]
              have hv1 : st.2.length = vis.length + new.length := f3
              simp only [List.length_cons] at hfuel
              omega
            obtain ⟨hA, hB⟩ := ih st.1 st.2 inv2 hfuel2
            constructor
            · intro p hp
              rw [hres] at hp
              exact hA p hp
            · intro hex
              obtain ⟨p, hp⟩ := hB hex
              exact ⟨p, by rw [hres]; exact hp⟩

theorem alookup_single_cases {s v : SystemID} {p : SystemID}
    (h : (alookup [(s, p)] v).isSome = true) : v = s := by
  by_cases hsv : s = v
  · exact hsv.symm
  · rw [show alookup [(s, p)] v = none from by simp [alookup, hsv]] at h
    cases h

theorem bfsInv_init {g : AdjGraph} {avoid : SystemID → Bool} {s e : SystemID}
    (hid : (-1 : Int) ∉ allIds g) (hs : s ≠ -1) :
    BfsInv g avoid s e [s] [(s, -1)] := by
  have hds : depthF [(s, (-1 : Int))] s = 1 := by
    rw [@depthF_eq_chain _ avoid _ _ _ _ hid hs VisWF.init
      (Chain.root s (alookup_cons_self s (-1) []))]
    rfl
  refine ⟨VisWF.init, ?_, ?_, ?_, ?_, ?_, ?_⟩
  · intro x hx
    simp at hx
    subst hx
    simp [alookup]
  · intro v hv hvq n hn han
    have hvs : v = s := alookup_single_cases hv
    subst hvs
    exact absurd (by simp) hvq
  · simp
  · intro h t hq x hx
    have hh : s = h := ((List.cons.injEq s [] h t).mp hq).1
    subst hh
    simp at hx
    subst hx
    omega
  · intro v hv r hr
    have hvs : v = s := alookup_single_cases hv
    subst hvs
    rw [hds]
    exact isRoute_length_pos hr
  · intro hv
    have hvs : e = s := alookup_single_cases hv
    simp [hvs]

/-- Correctness of the BFS entry point on admissible inputs: any returned list
is a minimum-length admissible route, and one is returned whenever an
admissible route exists. -/
theorem findShortestPath_correct {g : AdjGraph} {s e : SystemID} {avoid : SystemID → Bool}
    (hid : (-1 : Int) ∉ allIds g) (hs : s ≠ -1)
    (hsa : avoid s = false) (hea : avoid e = false) :
    (∀ p, FindShortestPath g s e avoid = some p →
        IsRoute g avoid s e p ∧ ∀ r, IsRoute g avoid s e r → p.length ≤ r.length) ∧
    ((∃ r, IsRoute g avoid s e r) → ∃ p, FindShortestPath g s e avoid = some p) := by
  have hguard : (avoid s || avoid e) = false := by rw [hsa, hea]; rfl
  have hmain := @bfsLoop_correct _ _ _ e hid hs hsa (bfsFuel g) [s] [(s, -1)]
    (bfsInv_init hid hs) (by simp [bfsFuel]; omega)
  constructor
  · intro p hp
    rw [FindShortestPath, if_neg (by simp [hguard])] at hp
    exact hmain.1 p hp
  · intro hex
    obtain ⟨p, hp⟩ := hmain.2 hex
    refine ⟨p, ?_⟩
    rw [FindShortestPath, if_neg (by simp [hguard])]
    exact hp

/-- C1 (amended): provided no system identifier equals `-1` (the parent-map
sentinel of the BFS) and the start system is not `-1`: for every graph, start,
end and exclusion set with start and end outside the exclusion set,
`FindShortestPath` returns a route from start to end of minimum length among
all routes whose systems avoid the exclusion set whenever such a route exists,
and the no-path sentinel (`none`) otherwise; moreover
`FindShortestPath(G, s, s, {})` returns `[s]`. -/
theorem findShortestPathMinimal (g : AdjGraph) (s e : SystemID) (avoid : SystemID → Bool)
    (hid : (-1 : Int) ∉ allIds g) (hs : s ≠ -1)
    (hsa : avoid s = false) (hea : avoid e = false) :
    (∀ p, FindShortestPath g s e avoid = some p →
        IsRoute g avoid s e p ∧ ∀ r, IsRoute g avoid s e r → p.length ≤ r.length) ∧
    ((∃ r, IsRoute g avoid s e r) → ∃ p, FindShortestPath g s e avoid = some p) ∧
    (FindShortestPath g s e avoid = none → ¬ ∃ r, IsRoute g avoid s e r) ∧
    FindShortestPath g s s (fun _ => false) = some [s] := by
  obtain ⟨hA, hB⟩ := findShortestPath_correct hid hs hsa hea
  refine ⟨hA, hB, ?_, ?_⟩
  · intro hnone hex
    obtain ⟨p, hp⟩ := hB hex
    rw [hnone] at hp
    cases hp
  · have hchain : Chain [(s, (-1 : Int))] s [s] :=
      Chain.root s (alookup_cons_self s (-1) [])
    have hwb : walkBack [(s, (-1 : Int))] ([(s, (-1 : Int))].length + 1) s = [s] :=
      @walkBack_viswf _ (fun _ => false) _ _ _ _ hid hs VisWF.init hchain
    rw [FindShortestPath, if_neg (by simp)]
    rw [show bfsFuel g = totalNbrLen g + 1 + 1 from rfl]
    simp only [bfsLoop, if_pos rfl]
    rw [hwb]
    simp

/-- Counterexample to C1 as stated: in a graph whose only system is `-1`, the
query from `-1` to itself with no exclusions returns the empty list, not
`[-1]`, because `-1` collides with the parent-map sentinel. -/
theorem findShortestPathMinimal_ce :
    FindShortestPath [((-1 : Int), ([] : List SystemID))] (-1) (-1) (fun _ => false) ≠
      some [(-1 : Int)] := by decide

/-- Closed instantiation of `findShortestPathMinimal`: on the two-system graph
`1 - 2` a route is returned. -/
theorem findShortestPathMinimal_witness :
    ∃ p, FindShortestPath [((1 : Int), [2]), (2, [1])] 1 2 (fun _ => false) = some p :=
  (findShortestPathMinimal [((1 : Int), [2]), (2, [1])] 1 2 (fun _ => false)
      (by decide) (by decide) rfl rfl).2.1
    ⟨[1, 2], IsRoute.cons 1 2 2 [2] (by decide) rfl (IsRoute.single 2 rfl)⟩

/-! ## Weighted-search bookkeeping (`FindPreferredPath`) -/

theorem mem_keys_aset {κ α : Type} [DecidableEq κ] (m : List (κ × α)) (k x : κ) (v : α) :
    x ∈ (aset m k v).map Prod.fst ↔ x ∈ m.map Prod.fst ∨ x = k := by
  induction m with
  | nil => simp [aset]
  | cons hd tl ih =>
      obtain ⟨k2, w⟩ := hd
      by_cases hk : k2 = k
      · subst hk
        simp [aset]
        tauto
      · simp [aset, hk, ih]
        tauto

theorem nodup_keys_aset {κ α : Type} [DecidableEq κ] {m : List (κ × α)} (k : κ) (v : α)
    (h : (m.map Prod.fst).Nodup) : ((aset m k v).map Prod.fst).Nodup := by
  induction m with
  | nil => simp [aset]
  | cons hd tl ih =>
      obtain ⟨k2, w⟩ := hd
      simp only [List.map_cons, List.nodup_cons] at h
      by_cases hk : k2 = k
      · subst hk
        rw [show aset ((k2, w) :: tl) k2 v = (k2, v) :: tl from by simp [aset]]
        simp only [List.map_cons, List.nodup_cons]
        exact h
      · simp only [aset, if_neg hk, List.map_cons, List.nodup_cons]
        refine ⟨fun hmem => ?_, ih h.2⟩
        rcases (mem_keys_aset tl k k2 v).mp hmem with hmem | hmem
        · exact h.1 hmem
        · exact hk hmem

theorem costSum_aset {m : List (SystemID × Nat)} {n : SystemID} {w : Nat} (v : Nat)
    (h : alookup m n = some w) : costSum (aset m n v) + w = costSum m + v := by
  induction m with
  | nil => simp [alookup] at h
  | cons hd tl ih =>
      obtain ⟨k2, w2⟩ := hd
      by_cases hk : k2 = n
      · subst hk
        rw [alookup_cons_self] at h
        cases h
        rw [show aset ((k2, w) :: tl) k2 v = (k2, v) :: tl from by simp [aset]]
        simp only [costSum, List.map_cons, List.sum_cons]
        omega
      · rw [alookup_cons_ne _ _ hk] at h
        have ihh := ih h
        simp only [aset, if_neg hk, costSum, List.map_cons, List.sum_cons]
        simp only [costSum] at ihh
        omega

theorem getCost_aset (m : List (SystemID × Nat)) (n x : SystemID) (v : Nat) :
    getCost (aset m n v) x = if n = x then v else getCost m x := by
  unfold getCost
  rw [alookup_aset]
  by_cases h : n = x <;> simp [h]

theorem mem_eraseIdx_of_ne {α : Type} :
    ∀ (l : List α) (i : Nat) (x cur : α), x ∈ l → x ≠ cur → l[i]? = some cur →
      x ∈ l.eraseIdx i := by
  intro l
  induction l with
  | nil => intro i x cur hx; cases hx
  | cons y ys ih =>
      intro i x cur hx hne hget
      cases i with
      | zero =>
          simp at hget
          subst hget
          rcases List.mem_cons.mp hx with rfl | hx
          · exact absurd rfl hne
          · simpa [List.eraseIdx] using hx
      | succ i =>
          simp only [List.eraseIdx_cons_succ]
          rcases List.mem_cons.mp hx with rfl | hx
          · simp
          · simp only [List.getElem?_cons_succ] at hget
            exact List.mem_cons_of_mem y (ih i x cur hx hne hget)

theorem findMinIdx_mem (costs : List (SystemID × Nat)) (pq : List SystemID) :
    ∀ (rest : List SystemID) (i lowest : Nat) (best : Option (Nat × SystemID)),
      (∀ j c, best = some (j, c) → pq[j]? = some c) →
      (∀ k, rest[k]? = pq[i + k]?) →
      ∀ j c, findMinIdx costs rest i lowest best = some (j, c) → pq[j]? = some c := by
  intro rest
  induction rest with
  | nil =>
      intro i lowest best hbest hidx j c hres
      simp only [findMinIdx] at hres
      exact hbest j c hres
  | cons id2 rest2 ih =>
      intro i lowest best hbest hidx j c hres
      simp only [findMinIdx] at hres
      by_cases hlt : getCost costs id2 < lowest
      · rw [if_pos hlt] at hres
        refine ih (i + 1) (getCost costs id2) (some (i, id2)) ?_ ?_ j c hres
        · intro j2 c2 hj
          cases hj
          have h0 := hidx 0
          simpa using h0.symm
        · intro k
          have := hidx (k + 1)
          simp only [List.getElem?_cons_succ] at this
          rw [this]
          congr 1
          omega
      · rw [if_neg hlt] at hres
        refine ih (i + 1) lowest best hbest ?_ j c hres
        intro k
        have := hidx (k + 1)
        simp only [List.getElem?_cons_succ] at this
        rw [this]
        congr 1
        omega

theorem findMinIdx_some (costs : List (SystemID × Nat)) :
    ∀ (rest : List SystemID) (i lowest : Nat) (jc : Nat × SystemID),
      (findMinIdx costs rest i lowest (some jc)).isSome = true := by
  intro rest
  induction rest with
  | nil => intro i lowest jc; simp [findMinIdx]
  | cons id2 rest2 ih =>
      intro i lowest jc
      simp only [findMinIdx]
      by_cases hlt : getCost costs id2 < lowest
      · rw [if_pos hlt]; exact ih _ _ _
      · rw [if_neg hlt]; exact ih _ _ _

theorem selectMin_some (costs : List (SystemID × Nat)) (x : SystemID)
    (rest : List SystemID) (hx : getCost costs x < 10000000000) :
    (selectMin costs (x :: rest)).isSome = true := by
  unfold selectMin
  simp only [findMinIdx, if_pos hx]
  exact findMinIdx_some costs rest 1 (getCost costs x) (0, x)

theorem selectMin_spec {costs : List (SystemID × Nat)} {pq : List SystemID}
    {i : Nat} {cur : SystemID} (h : selectMin costs pq = some (i, cur)) :
    pq[i]? = some cur := by
  refine findMinIdx_mem costs pq pq 0 10000000000 none ?_ ?_ i cur h
  · intro j c hj; cases hj
  · intro k
    rw [Nat.zero_add]

theorem stepCost_pos (details : SystemID → Option ESISystemInfo) (preference : String)
    (n : SystemID) : 1 ≤ stepCost details preference n := by
  unfold stepCost
  by_cases hp : preference ≠ "shortest"
  · rw [if_pos hp]
    cases details n with
    | some i =>
        dsimp only
        split
        · omega
        · split <;> omega
    | none =>
        dsimp only
        omega
  · rw [if_neg hp]

theorem relaxNbrs_spec (details : SystemID → Option ESISystemInfo) (preference : String)
    (avoid : SystemID → Bool) (cur : SystemID) (c0 : Nat) :
    ∀ (ns : List SystemID) (costs : List (SystemID × Nat))
      (parents : List (SystemID × SystemID)) (pq : List SystemID),
      getCost costs cur = c0 →
      ∀ costs2 parents2 pq2,
        relaxNbrs details preference avoid cur ns costs parents pq =
          (costs2, parents2, pq2) →
        (∀ x, (alookup parents2 x = alookup parents x ∧
               getCost costs2 x = getCost costs x) ∨
          (avoid x = false ∧ x ∈ ns ∧ alookup parents2 x = some cur ∧
           getCost costs2 x = c0 + stepCost details preference x ∧
           getCost costs2 x < getCost costs x ∧ x ∈ pq2)) ∧
        (∀ y ∈ pq2, y ∈ pq ∨ alookup parents2 y = some cur) ∧
        (∀ y ∈ pq, y ∈ pq2) ∧
        (∀ n ∈ ns, avoid n = false →
          getCost costs2 n ≤ c0 + stepCost details preference n) ∧
        (2 * costSum costs2 + pq2.length ≤ 2 * costSum costs + pq.length) ∧
        ((parents.map Prod.fst).Nodup → (parents2.map Prod.fst).Nodup) := by
  intro ns
  induction ns with
  | nil =>
      intro costs parents pq hc0 costs2 parents2 pq2 heq
      simp only [relaxNbrs] at heq
      cases heq
      refine ⟨fun x => Or.inl ⟨rfl, rfl⟩, fun y hy => Or.inl hy, fun y hy => hy,
        fun m hm => absurd hm (List.not_mem_nil m), by omega, fun h => h⟩
  | cons n ns ih =>
      intro costs parents pq hc0 costs2 parents2 pq2 heq
      by_cases hav : avoid n = true
      · have heq2 : relaxNbrs details preference avoid cur ns costs parents pq =
            (costs2, parents2, pq2) := by
          simpa [relaxNbrs, hav] using heq
        obtain ⟨f1, f2, f3, f4, f5, f6⟩ := ih costs parents pq hc0 costs2 parents2 pq2 heq2
        refine ⟨?_, f2, f3, ?_, f5, f6⟩
        · intro x
          rcases f1 x with h | ⟨h1, h2, h3, h4, h5, h6⟩
          · exact Or.inl h
          · exact Or.inr ⟨h1, List.mem_cons_of_mem n h2, h3, h4, h5, h6⟩
        · intro m hm hmav
          rcases List.mem_cons.mp hm with rfl | hm
          · rw [hmav] at hav; cases hav
          · exact f4 m hm hmav
      · have havf : avoid n = false := by
          cases h : avoid n with
          | false => rfl
          | true => exact absurd h hav
        by_cases hrel : getCost costs cur + stepCost details preference n <
            getCost costs n
        · have heq2 : relaxNbrs details preference avoid cur ns
              (aset costs n (getCost costs cur + stepCost details preference n))
              (aset parents n cur) (pq ++ [n]) = (costs2, parents2, pq2) := by
            simpa [relaxNbrs, havf, hrel] using heq
          have hncur : n ≠ cur := by
            intro he
            subst he
            have := stepCost_pos details preference n
            omega
          have hc0b : getCost (aset costs n
              (getCost costs cur + stepCost details preference n)) cur = c0 := by
            rw [getCost_aset, if_neg hncur, hc0]
          obtain ⟨f1, f2, f3, f4, f5, f6⟩ := ih _ _ _ hc0b costs2 parents2 pq2 heq2
          have hmono2 : ∀ x, getCost costs2 x ≤
              getCost (aset costs n (getCost costs cur +
                stepCost details preference n)) x := by
            intro x
            rcases f1 x with ⟨_, h2⟩ | ⟨_, _, _, _, h5, _⟩
            · rw [h2]
            · omega
          have hG1 : ∀ x, (alookup parents2 x = alookup parents x ∧
              getCost costs2 x = getCost costs x) ∨
              (avoid x = false ∧ x ∈ n :: ns ∧ alookup parents2 x = some cur ∧
               getCost costs2 x = c0 + stepCost details preference x ∧
               getCost costs2 x < getCost costs x ∧ x ∈ pq2) := by
            intro x
            rcases f1 x with ⟨h1, h2⟩ | ⟨h1, h2, h3, h4, h5, h6⟩
            · by_cases hxn : x = n
              · subst hxn
                refine Or.inr ⟨havf, by simp, ?_, ?_, ?_, ?_⟩
                · rw [h1, alookup_aset, if_pos rfl]
                · rw [h2, getCost_aset, if_pos rfl, hc0]
                · rw [h2, getCost_aset, if_pos rfl]
                  exact hrel
                · exact f3 x (by simp)
              · refine Or.inl ⟨?_, ?_⟩
                · rw [h1, alookup_aset, if_neg (fun he => hxn he.symm)]
                · rw [h2, getCost_aset, if_neg (fun he => hxn he.symm)]
            · refine Or.inr ⟨h1, List.mem_cons_of_mem n h2, h3, h4, ?_, h6⟩
              calc getCost costs2 x
                  < getCost (aset costs n (getCost costs cur +
                      stepCost details preference n)) x := h5
                _ ≤ getCost costs x := by
                    rw [getCost_aset]
                    by_cases hxn : n = x
                    · rw [if_pos hxn]
                      subst hxn
                      omega
                    · rw [if_neg hxn]
          refine ⟨hG1, ?_, ?_, ?_, ?_, ?_⟩
          · intro y hy
            rcases f2 y hy with hmem | hpar
            · rcases List.mem_append.mp hmem with hmem | hmem
              · exact Or.inl hmem
              · simp at hmem
                subst hmem
                rcases hG1 y with ⟨h1, h2⟩ | ⟨_, _, h3, _, _, _⟩
                · exfalso
                  have hm2 := hmono2 y
                  rw [getCost_aset, if_pos rfl] at hm2
                  omega
                · exact Or.inr h3
            · exact Or.inr hpar
          · intro y hy
            exact f3 y (List.mem_append.mpr (Or.inl hy))
          · intro m hm hmav
            rcases List.mem_cons.mp hm with rfl | hm
            · have := hmono2 m
              rw [getCost_aset, if_pos rfl, hc0] at this
              exact this
            · exact f4 m hm hmav
          · have hwex : ∃ w, alookup costs n = some w := by
              cases hl : alookup costs n with
              | none =>
                  exfalso
                  have hz : getCost costs n = 0 := by unfold getCost; rw [hl]; rfl
                  omega
              | some w => exact ⟨w, rfl⟩
            obtain ⟨w, hw⟩ := hwex
            have hweq : w = getCost costs n := by
              unfold getCost
              rw [hw]
              rfl
            have hsum := costSum_aset
              (getCost costs cur + stepCost details preference n) hw
            simp only [List.length_append, List.length_cons, List.length_nil] at f5 ⊢
            omega
          · intro hnd
            exact f6 (nodup_keys_aset n cur hnd)
        · have heq2 : relaxNbrs details preference avoid cur ns costs parents pq =
              (costs2, parents2, pq2) := by
            simpa [relaxNbrs, havf, hrel] using heq
          obtain ⟨f1, f2, f3, f4, f5, f6⟩ := ih costs parents pq hc0 costs2 parents2 pq2 heq2
          refine ⟨?_, f2, f3, ?_, f5, f6⟩
          · intro x
            rcases f1 x with h | ⟨h1, h2, h3, h4, h5, h6⟩
            · exact Or.inl h
            · exact Or.inr ⟨h1, List.mem_cons_of_mem n h2, h3, h4, h5, h6⟩
          · intro m hm hmav
            rcases List.mem_cons.mp hm with rfl | hm
            · rcases f1 m with ⟨h1, h2⟩ | ⟨h1, h2, h3, h4, h5, h6⟩
              · rw [h2]
                omega
              · rw [h4]
            · exact f4 m hm hmav

theorem routeCost_snoc (details : SystemID → Option ESISystemInfo) (preference : String)
    (u : SystemID) : ∀ (r : List SystemID), r ≠ [] →
    routeCost details preference (r ++ [u]) =
      routeCost details preference r + stepCost details preference u := by
  intro r
  induction r with
  | nil => intro h; exact absurd rfl h
  | cons a rest ih =>
      intro _
      cases rest with
      | nil => simp [routeCost]
      | cons b rest2 =>
          have ihh := ih (by simp)
          simp only [List.cons_append] at ihh ⊢
          show stepCost details preference b +
              routeCost details preference (b :: (rest2 ++ [u])) =
            stepCost details preference b +
              routeCost details preference (b :: rest2) +
              stepCost details preference u
          rw [ihh]
          omega

theorem getElem?_some_lt {α : Type} {l : List α} {i : Nat} {a : α}
    (h : l[i]? = some a) : i < l.length := by
  by_contra hge
  push_neg at hge
  rw [List.getElem?_eq_none hge] at h
  cases h

theorem mem_of_getElem?_some {α : Type} : ∀ {l : List α} {i : Nat} {a : α},
    l[i]? = some a → a ∈ l := by
  intro l
  induction l with
  | nil => intro i a h; cases h
  | cons x xs ih =>
      intro i a h
      cases i with
      | zero =>
          simp at h
          simp [h]
      | succ i =>
          simp only [List.getElem?_cons_succ] at h
          exact List.mem_cons_of_mem x (ih h)

theorem getCost_initCosts_le (g : AdjGraph) (x : SystemID) :
    getCost (initCosts g) x ≤ INF := by
  unfold initCosts
  suffices h : ∀ (l : AdjGraph) (m0 : List (SystemID × Nat)),
      getCost m0 x ≤ INF →
      getCost (l.foldl (fun m kv => aset m kv.1 INF) m0) x ≤ INF by
    exact h g [] (by unfold getCost alookup; simp)
  intro l
  induction l with
  | nil => intro m0 h; exact h
  | cons kv tl ih =>
      intro m0 h
      refine ih _ ?_
      rw [getCost_aset]
      by_cases hk : kv.1 = x
      · rw [if_pos hk]
      · rw [if_neg hk]; exact h

theorem getCost_initCosts_mem (g : AdjGraph) (x : SystemID) (hx : x ∈ keysG g) :
    getCost (initCosts g) x = INF := by
  unfold initCosts
  suffices h : ∀ (l : AdjGraph) (m0 : List (SystemID × Nat)),
      (x ∈ l.map Prod.fst ∨ getCost m0 x = INF) →
      getCost (l.foldl (fun m kv => aset m kv.1 INF) m0) x = INF by
    exact h g [] (Or.inl hx)
  intro l
  induction l with
  | nil =>
      intro m0 h
      rcases h with h | h
      · simp at h
      · exact h
  | cons kv tl ih =>
      intro m0 h
      refine ih _ ?_
      rcases h with h | h
      · simp only [List.map_cons, List.mem_cons] at h
        rcases h with rfl | h
        · right
          rw [getCost_aset, if_pos rfl]
        · exact Or.inl h
      · right
        rw [getCost_aset]
        by_cases hk : kv.1 = x
        · rw [if_pos hk]
        · rw [if_neg hk]; exact h

theorem djInv_init (g : AdjGraph) (details : SystemID → Option ESISystemInfo)
    (preference : String) (avoid : SystemID → Bool) (startID endID : SystemID) :
    DjInv g details preference avoid startID endID
      (aset (initCosts g) startID 0) [] [startID] := by
  refine ⟨?_, rfl, by simp, ?_, ?_, ?_, ?_, ?_, ?_, ?_⟩
  · rw [getCost_aset, if_pos rfl]
  · intro n p h
    simp [alookup] at h
  · intro x hx
    simp at hx
    exact Or.inl hx
  · intro x
    rw [getCost_aset]
    by_cases hk : startID = x
    · rw [if_pos hk]
      unfold INF
      omega
    · rw [if_neg hk]
      exact getCost_initCosts_le g x
  · intro x hx
    rcases hx with rfl | hx
    · exact Or.inl (by simp)
    · simp [alookup] at hx
  · by_cases he : endID = startID
    · exact Or.inl (by simp [he])
    · refine Or.inr ?_
      rintro (h | h)
      · exact he h
      · simp [alookup] at h
  · intro x hx hcost
    rw [getCost_aset] at hcost
    by_cases hk : startID = x
    · exact Or.inl hk.symm
    · rw [if_neg hk] at hcost
      rw [getCost_initCosts_mem g x hx] at hcost
      omega
  · intro _ n h
    simp [alookup] at h

theorem djInv_final_bound {g : AdjGraph} {details : SystemID → Option ESISystemInfo}
    {preference : String} {avoid : SystemID → Bool} {startID endID : SystemID}
    {costs : List (SystemID × Nat)} {parents : List (SystemID × SystemID)}
    (inv : DjInv g details preference avoid startID endID costs parents []) :
    ∀ (k : Nat) (r : List SystemID) (u : SystemID), r.length ≤ k →
      IsRoute g avoid startID u r →
      (∀ x ∈ r, x ∈ keysG g ∨ x = startID) →
      routeCost details preference r < INF →
      getCost costs u ≤ routeCost details preference r ∧
        (u = startID ∨ (alookup parents u).isSome = true) := by
  intro k
  induction k with
  | zero =>
      intro r u hk hr hkeys hcost
      have := isRoute_length_pos hr
      omega
  | succ k ih =>
      intro r u hk hr hkeys hcost
      rcases isRoute_snoc_inv hr with ⟨heq, hrs⟩ | ⟨r2, pv, heq, hroute, hadj, hav⟩
      · subst heq
        refine ⟨?_, Or.inl rfl⟩
        rw [inv.startCost]
        omega
      · subst heq
        have hr2ne : r2 ≠ [] := isRoute_nonempty hroute
        have hsnoc := routeCost_snoc details preference u r2 hr2ne
        have hprefix : routeCost details preference r2 ≤
            routeCost details preference (r2 ++ [u]) := by omega
        have hk2 : r2.length ≤ k := by
          simp only [List.length_append, List.length_cons, List.length_nil] at hk
          omega
        obtain ⟨hc_pv, hT_pv⟩ := ih r2 pv hk2 hroute
          (fun y hy => hkeys y (List.mem_append.mpr (Or.inl hy)))
          (lt_of_le_of_lt hprefix hcost)
        have hdone : DoneAt g details preference avoid costs pv := by
          rcases inv.donePq pv hT_pv with hmem | hdone
          · exact absurd hmem (List.not_mem_nil pv)
          · exact hdone
        have hstep := hdone u hadj hav
        refine ⟨by omega, ?_⟩
        rcases hkeys u (List.mem_append.mpr (Or.inr (by simp))) with hku | hku
        · exact inv.keyTouch u hku (by omega)
        · exact Or.inl hku

theorem prefLoop_main (g : AdjGraph) (details : SystemID → Option ESISystemInfo)
    (preference : String) (avoid : SystemID → Bool) (startID endID : SystemID)
    (recon : List (SystemID × SystemID) → Option (List SystemID)) :
    ∀ (fuel : Nat) (costs : List (SystemID × Nat))
      (parents : List (SystemID × SystemID)) (pq : List SystemID),
      DjInv g details preference avoid startID endID costs parents pq →
      2 * costSum costs + pq.length < fuel →
      (∀ p, prefLoop g details preference avoid endID recon fuel costs parents pq =
          some p →
        ∃ costs2 parents2 pq2,
          DjInv g details preference avoid startID endID costs2 parents2 pq2 ∧
          (endID = startID ∨ (alookup parents2 endID).isSome = true) ∧
          recon parents2 = some p) ∧
      ((∀ costs3 parents3 pq3,
          DjInv g details preference avoid startID endID costs3 parents3 pq3 →
          (endID = startID ∨ (alookup parents3 endID).isSome = true) →
          (recon parents3).isSome = true) →
        (∃ r, IsRoute g avoid startID endID r ∧
          (∀ x ∈ r, x ∈ keysG g ∨ x = startID) ∧
          routeCost details preference r < INF) →
        (prefLoop g details preference avoid endID recon fuel costs parents
          pq).isSome = true) := by
  intro fuel
  induction fuel with
  | zero =>
      intro costs parents pq inv hfuel
      exact absurd hfuel (by omega)
  | succ fuel ih =>
      intro costs parents pq inv hfuel
      cases pq with
      | nil =>
          constructor
          · intro p hp
            simp [prefLoop] at hp
          · rintro hrec ⟨r, hr, hkeys, hrc⟩
            exfalso
            obtain ⟨_, hT⟩ := djInv_final_bound inv r.length r endID (le_refl _)
              hr hkeys hrc
            rcases inv.endPend with hmem | hnT
            · exact absurd hmem (List.not_mem_nil endID)
            · exact hnT hT
      | cons x pq1 =>
          have hxcost : getCost costs x < 10000000000 := by
            have := inv.costBound x
            unfold INF at this
            omega
          have hsel : (selectMin costs (x :: pq1)).isSome = true :=
            selectMin_some costs x pq1 hxcost
          obtain ⟨⟨i, cur⟩, heq⟩ := Option.isSome_iff_exists.mp hsel
          have hgetel : (x :: pq1)[i]? = some cur := selectMin_spec heq
          have hcurmem : cur ∈ x :: pq1 := mem_of_getElem?_some hgetel
          have hilt : i < (x :: pq1).length := getElem?_some_lt hgetel
          have hlen2 : ((x :: pq1).eraseIdx i).length = pq1.length := by
            rw [List.length_eraseIdx, if_pos hilt]
            simp
          by_cases hce : cur = endID
          · have hunfold : prefLoop g details preference avoid endID recon (fuel + 1)
                costs parents (x :: pq1) = recon parents := by
              simp [prefLoop, heq, hce]
            have hTend : endID = startID ∨ (alookup parents endID).isSome = true :=
              hce ▸ inv.pqT cur hcurmem
            constructor
            · intro p hp
              rw [hunfold] at hp
              exact ⟨costs, parents, x :: pq1, inv, hTend, hp⟩
            · intro hrec _
              rw [hunfold]
              exact hrec costs parents (x :: pq1) inv hTend
          · rcases hrx : relaxNbrs details preference avoid cur (nbrs g cur) costs
                parents ((x :: pq1).eraseIdx i) with ⟨costsN, parentsN, pqN⟩
            obtain ⟨f1, f2, f3, f4, f5, f6⟩ :=
              relaxNbrs_spec details preference avoid cur (getCost costs cur)
                (nbrs g cur) costs parents ((x :: pq1).eraseIdx i) rfl
                costsN parentsN pqN hrx
            have hunfold : prefLoop g details preference avoid endID recon (fuel + 1)
                costs parents (x :: pq1) =
                prefLoop g details preference avoid endID recon fuel
                  costsN parentsN pqN := by
              simp [prefLoop, heq, hce, hrx]
            have hcurT : cur = startID ∨ (alookup parents cur).isSome = true :=
              inv.pqT cur hcurmem
            have hcmono : ∀ y, getCost costsN y ≤ getCost costs y := by
              intro y
              rcases f1 y with ⟨_, h2⟩ | ⟨_, _, _, _, h5, _⟩
              · rw [h2]
              · omega
            have hcurcost : getCost costsN cur = getCost costs cur := by
              rcases f1 cur with ⟨_, h2⟩ | ⟨_, _, _, h4, h5, _⟩
              · exact h2
              · exfalso
                have := stepCost_pos details preference cur
                omega
            have hTmono : ∀ y, (y = startID ∨ (alookup parents y).isSome = true) →
                (y = startID ∨ (alookup parentsN y).isSome = true) := by
              intro y hy
              rcases hy with rfl | hy
              · exact Or.inl rfl
              · rcases f1 y with ⟨h1, _⟩ | ⟨_, _, h3, _, _, _⟩
                · rw [h1]
                  exact Or.inr hy
                · exact Or.inr (by simp [h3])
            have hpq2mem : ∀ y, y ∈ (x :: pq1).eraseIdx i → y ∈ x :: pq1 :=
              fun y hy => List.eraseIdx_subset (x :: pq1) i hy
            have hinvN : DjInv g details preference avoid startID endID
                costsN parentsN pqN := by
              refine ⟨?_, ?_, f6 inv.parNodup, ?_, ?_, ?_, ?_, ?_, ?_, ?_⟩
              · rcases f1 startID with ⟨_, h2⟩ | ⟨_, _, _, _, h5, _⟩
                · rw [h2, inv.startCost]
                · exfalso
                  have := inv.startCost
                  omega
              · rcases f1 startID with ⟨h1, _⟩ | ⟨_, _, _, _, h5, _⟩
                · rw [h1, inv.startPar]
                · exfalso
                  have := inv.startCost
                  omega
              · intro n p hnp
                rcases f1 n with ⟨h1, h2⟩ | ⟨hA, hmemns, h3, h4, _, _⟩
                · rw [h1] at hnp
                  obtain ⟨e1, e2, e3, e4⟩ := inv.entry n p hnp
                  refine ⟨e1, e2, hTmono p e3, ?_⟩
                  calc getCost costsN p ≤ getCost costs p := hcmono p
                    _ < getCost costs n := e4
                    _ = getCost costsN n := h2.symm
                · rw [h3] at hnp
                  cases hnp
                  refine ⟨hA, hmemns, hTmono cur hcurT, ?_⟩
                  have := stepCost_pos details preference n
                  omega
              · intro y hy
                rcases f2 y hy with hmem | hpar
                · exact hTmono y (inv.pqT y (hpq2mem y hmem))
                · exact Or.inr (by simp [hpar])
              · intro y
                exact le_trans (hcmono y) (inv.costBound y)
              · intro y hTy
                rcases f1 y with ⟨h1, h2⟩ | ⟨_, _, _, _, _, h6⟩
                · have hTy_pre : y = startID ∨ (alookup parents y).isSome = true := by
                    rcases hTy with rfl | hk
                    · exact Or.inl rfl
                    · rw [h1] at hk
                      exact Or.inr hk
                  rcases inv.donePq y hTy_pre with hmem | hdone
                  · by_cases hyc : y = cur
                    · subst hyc
                      refine Or.inr ?_
                      intro n hn han
                      have hf4 := f4 n hn han
                      rw [← hcurcost] at hf4
                      exact hf4
                    · exact Or.inl (f3 y
                        (mem_eraseIdx_of_ne (x :: pq1) i y cur hmem hyc hgetel))
                  · refine Or.inr ?_
                    intro n hn han
                    calc getCost costsN n ≤ getCost costs n := hcmono n
                      _ ≤ getCost costs y + stepCost details preference n :=
                        hdone n hn han
                      _ = getCost costsN y + stepCost details preference n := by
                        rw [h2]
                · exact Or.inl h6
              · rcases inv.endPend with hmem | hnT
                · refine Or.inl (f3 endID
                    (mem_eraseIdx_of_ne (x :: pq1) i endID cur hmem
                      (fun he => hce he.symm) hgetel))
                · rcases f1 endID with ⟨h1, _⟩ | ⟨_, _, _, _, _, h6⟩
                  · refine Or.inr ?_
                    rintro (rfl | hk)
                    · exact hnT (Or.inl rfl)
                    · rw [h1] at hk
                      exact hnT (Or.inr hk)
                  · exact Or.inl h6
              · intro y hy hc
                rcases f1 y with ⟨h1, h2⟩ | ⟨_, _, h3, _, _, _⟩
                · rw [h2] at hc
                  exact hTmono y (inv.keyTouch y hy hc)
                · exact Or.inr (by simp [h3])
              · intro hsa n hn
                rcases f1 n with ⟨h1, _⟩ | ⟨hA, hmemns, h3, _, _, _⟩
                · rw [h1] at hn
                  exact inv.reach hsa n hn
                · have hcur_route : ∃ rc, IsRoute g avoid startID cur rc := by
                    rcases hcurT with hks | hk
                    · refine ⟨[cur], ?_⟩
                      rw [show cur = startID from hks]
                      exact IsRoute.single startID hsa
                    · exact inv.reach hsa cur hk
                  obtain ⟨rc, hrc⟩ := hcur_route
                  exact ⟨rc ++ [n], isRoute_snoc_ext hrc hmemns hA⟩
            have hfuelN : 2 * costSum costsN + pqN.length < fuel := by
              rw [hlen2] at f5
              simp only [List.length_cons] at hfuel
              omega
            obtain ⟨hA2, hB2⟩ := ih costsN parentsN pqN hinvN hfuelN
            constructor
            · intro p hp
              rw [hunfold] at hp
              exact hA2 p hp
            · intro hrec hex
              rw [hunfold]
              exact hB2 hrec hex

theorem plist_head {parents : List (SystemID × SystemID)} {startID cursor : SystemID}
    {c : List SystemID} (h : PList parents startID cursor c) : c.head? = some cursor := by
  cases h <;> rfl

theorem plist_getLast {parents : List (SystemID × SystemID)} {startID cursor : SystemID}
    {c : List SystemID} (h : PList parents startID cursor c) :
    c.getLast? = some startID := by
  induction h with
  | base => rfl
  | step cursor p c hne hp hc ih =>
      have hne2 : c ≠ [] := by cases hc <;> simp
      cases c with
      | nil => exact absurd rfl hne2
      | cons y ys => rw [List.getLast?_cons_cons]; exact ih

theorem plist_mem {parents : List (SystemID × SystemID)} {startID cursor : SystemID}
    {c : List SystemID} (h : PList parents startID cursor c) :
    ∀ x ∈ c, x = startID ∨ (alookup parents x).isSome = true := by
  induction h with
  | base =>
      intro x hx
      simp at hx
      exact Or.inl hx
  | step cursor p c hne hp hc ih =>
      intro x hx
      rcases List.mem_cons.mp hx with rfl | hx
      · exact Or.inr (by simp [hp])
      · exact ih x hx

theorem plist_cost_le {g : AdjGraph} {details : SystemID → Option ESISystemInfo}
    {preference : String} {avoid : SystemID → Bool} {startID endID : SystemID}
    {costs : List (SystemID × Nat)} {parents : List (SystemID × SystemID)}
    {pq : List SystemID}
    (inv : DjInv g details preference avoid startID endID costs parents pq) :
    ∀ {cursor : SystemID} {c : List SystemID}, PList parents startID cursor c →
      ∀ x ∈ c, getCost costs x ≤ getCost costs cursor := by
  intro cursor c h
  induction h with
  | base =>
      intro x hx
      simp at hx
      subst hx
      exact le_refl _
  | step cursor p c hne hp hc ih =>
      intro x hx
      have hlt := (inv.entry cursor p hp).2.2.2
      rcases List.mem_cons.mp hx with rfl | hx
      · exact le_refl _
      · exact le_trans (ih x hx) (le_of_lt hlt)

theorem plist_nodup {g : AdjGraph} {details : SystemID → Option ESISystemInfo}
    {preference : String} {avoid : SystemID → Bool} {startID endID : SystemID}
    {costs : List (SystemID × Nat)} {parents : List (SystemID × SystemID)}
    {pq : List SystemID}
    (inv : DjInv g details preference avoid startID endID costs parents pq) :
    ∀ {cursor : SystemID} {c : List SystemID}, PList parents startID cursor c →
      c.Nodup := by
  intro cursor c h
  induction h with
  | base => simp
  | step cursor p c hne hp hc ih =>
      have hlt := (inv.entry cursor p hp).2.2.2
      refine List.Pairwise.cons ?_ ih
      intro y hy
      intro heq
      subst heq
      have := plist_cost_le inv hc cursor hy
      omega

theorem plist_length_le {parents : List (SystemID × SystemID)} {startID cursor : SystemID}
    {c : List SystemID} (h : PList parents startID cursor c) (hnd : c.Nodup) :
    c.length ≤ parents.length + 1 := by
  have hsub : c ⊆ startID :: parents.map Prod.fst := by
    intro x hx
    rcases plist_mem h x hx with rfl | hs
    · exact List.mem_cons_self _ _
    · exact List.mem_cons_of_mem _ (alookup_isSome_mem_keys hs)
  have := (hnd.subperm hsub).length_le
  simpa using this

theorem plist_rebuild {parents : List (SystemID × SystemID)} {startID : SystemID} :
    ∀ {cursor : SystemID} {c : List SystemID}, PList parents startID cursor c →
      ∀ (fuel : Nat) (acc : List SystemID), c.length ≤ fuel →
        rebuildPath parents startID fuel cursor acc = some (c.reverse ++ acc) := by
  intro cursor c h
  induction h with
  | base =>
      intro fuel acc hlen
      cases fuel with
      | zero => simp at hlen
      | succ f => simp [rebuildPath]
  | step cursor p c hne hp hc ih =>
      intro fuel acc hlen
      cases fuel with
      | zero => simp at hlen
      | succ f =>
          have hstep : rebuildPath parents startID (f + 1) cursor acc =
              rebuildPath parents startID f p (cursor :: acc) := by
            simp [rebuildPath, hne, hp]
          rw [hstep, ih f (cursor :: acc) (by simp at hlen ⊢; omega)]
          simp

theorem plist_exists {g : AdjGraph} {details : SystemID → Option ESISystemInfo}
    {preference : String} {avoid : SystemID → Bool} {startID endID : SystemID}
    {costs : List (SystemID × Nat)} {parents : List (SystemID × SystemID)}
    {pq : List SystemID}
    (inv : DjInv g details preference avoid startID endID costs parents pq) :
    ∀ (k : Nat) (cursor : SystemID), getCost costs cursor ≤ k →
      (cursor = startID ∨ (alookup parents cursor).isSome = true) →
      ∃ c, PList parents startID cursor c := by
  intro k
  induction k with
  | zero =>
      intro cursor hck hT
      rcases hT with rfl | hT
      · exact ⟨[cursor], PList.base⟩
      · obtain ⟨p, hp⟩ := Option.isSome_iff_exists.mp hT
        have := (inv.entry cursor p hp).2.2.2
        omega
  | succ k ih =>
      intro cursor hck hT
      rcases hT with rfl | hT
      · exact ⟨[cursor], PList.base⟩
      · obtain ⟨p, hp⟩ := Option.isSome_iff_exists.mp hT
        obtain ⟨hav, hnb, hTp, hlt⟩ := inv.entry cursor p hp
        obtain ⟨c, hc⟩ := ih p (by omega) hTp
        have hne : cursor ≠ startID := by
          intro he
          rw [he, inv.startPar] at hp
          cases hp
        exact ⟨cursor :: c, PList.step cursor p c hne hp hc⟩

theorem plist_route {g : AdjGraph} {details : SystemID → Option ESISystemInfo}
    {preference : String} {avoid : SystemID → Bool} {startID endID : SystemID}
    {costs : List (SystemID × Nat)} {parents : List (SystemID × SystemID)}
    {pq : List SystemID}
    (inv : DjInv g details preference avoid startID endID costs parents pq)
    (hsa : avoid startID = false) :
    ∀ {cursor : SystemID} {c : List SystemID}, PList parents startID cursor c →
      IsRoute g avoid startID cursor c.reverse := by
  intro cursor c h
  induction h with
  | base => exact IsRoute.single startID hsa
  | step cursor p c hne hp hc ih =>
      obtain ⟨hav, hnb, _, _⟩ := inv.entry cursor p hp
      have hrev : (cursor :: c).reverse = c.reverse ++ [cursor] := by simp
      rw [hrev]
      exact isRoute_snoc_ext ih hnb hav

theorem costSum_aset_none {m : List (SystemID × Nat)} {k : SystemID} (v : Nat)
    (h : alookup m k = none) : costSum (aset m k v) = costSum m + v := by
  induction m with
  | nil => simp [aset, costSum]
  | cons hd tl ih =>
      obtain ⟨k2, w⟩ := hd
      by_cases hk : k2 = k
      · subst hk
        rw [alookup_cons_self] at h
        cases h
      · rw [alookup_cons_ne _ _ hk] at h
        have ihh := ih h
        simp only [aset, if_neg hk, costSum, List.map_cons, List.sum_cons]
        simp only [costSum] at ihh
        omega

theorem costSum_aset_zero (m : List (SystemID × Nat)) (k : SystemID) :
    costSum (aset m k 0) ≤ costSum m := by
  cases hl : alookup m k with
  | none => rw [costSum_aset_none 0 hl]; omega
  | some w =>
      have := costSum_aset 0 hl
      omega

theorem costSum_aset_inf (m : List (SystemID × Nat)) (k : SystemID) :
    costSum (aset m k INF) ≤ costSum m + INF := by
  cases hl : alookup m k with
  | none => rw [costSum_aset_none INF hl]
  | some w =>
      have := costSum_aset INF hl
      omega

theorem costSum_initCosts (g : AdjGraph) : costSum (initCosts g) ≤ INF * g.length := by
  unfold initCosts
  suffices h : ∀ (l : AdjGraph) (m0 : List (SystemID × Nat)),
      costSum (l.foldl (fun m kv => aset m kv.1 INF) m0) ≤
        costSum m0 + INF * l.length by
    have := h g []
    simpa [costSum] using this
  intro l
  induction l with
  | nil => intro m0; simp
  | cons kv tl ih =>
      intro m0
      have h1 := ih (aset m0 kv.1 INF)
      have h2 := costSum_aset_inf m0 kv.1
      simp only [List.foldl_cons, List.length_cons]
      have h3 : INF * (tl.length + 1) = INF * tl.length + INF := by ring
      omega

theorem pref_initial_fuel (g : AdjGraph) (startID : SystemID) :
    2 * costSum (aset (initCosts g) startID 0) + 1 < prefFuel g := by
  have h1 := costSum_aset_zero (initCosts g) startID
  have h2 := costSum_initCosts g
  unfold prefFuel
  have h3 : 2 * INF * g.length = 2 * (INF * g.length) := by ring
  omega

theorem rebuild_ok {g : AdjGraph} {details : SystemID → Option ESISystemInfo}
    {preference : String} {avoid : SystemID → Bool} {startID endID : SystemID}
    {costs : List (SystemID × Nat)} {parents : List (SystemID × SystemID)}
    {pq : List SystemID}
    (inv : DjInv g details preference avoid startID endID costs parents pq)
    (hT : endID = startID ∨ (alookup parents endID).isSome = true) :
    ∃ c, PList parents startID endID c ∧
      rebuildPath parents startID (parents.length + 1) endID [] = some c.reverse := by
  obtain ⟨c, hc⟩ := plist_exists inv (getCost costs endID) endID (le_refl _) hT
  have hnd := plist_nodup inv hc
  have hlen := plist_length_le hc hnd
  have hrb := plist_rebuild hc (parents.length + 1) [] hlen
  rw [List.append_nil] at hrb
  exact ⟨c, hc, hrb⟩

theorem findPreferredPath_sound (g : AdjGraph)
    (details : SystemID → Option ESISystemInfo) (preference : String)
    (avoid : SystemID → Bool) (startID endID : SystemID) :
    ∀ p, FindPreferredPath g startID endID details preference avoid = some p →
      ∃ costs2 parents2 pq2,
        DjInv g details preference avoid startID endID costs2 parents2 pq2 ∧
        (endID = startID ∨ (alookup parents2 endID).isSome = true) ∧
        rebuildPath parents2 startID (parents2.length + 1) endID [] = some p := by
  intro p hp
  exact (prefLoop_main g details preference avoid startID endID
      (fun parents => rebuildPath parents startID (parents.length + 1) endID [])
      (prefFuel g) (aset (initCosts g) startID 0) [] [startID]
      (djInv_init g details preference avoid startID endID)
      (by simpa using pref_initial_fuel g startID)).1 p hp

theorem findPreferredPath_complete (g : AdjGraph)
    (details : SystemID → Option ESISystemInfo) (preference : String)
    (avoid : SystemID → Bool) (startID endID : SystemID)
    (hex : ∃ r, IsRoute g avoid startID endID r ∧
      (∀ x ∈ r, x ∈ keysG g ∨ x = startID) ∧ routeCost details preference r < INF) :
    (FindPreferredPath g startID endID details preference avoid).isSome = true := by
  refine (prefLoop_main g details preference avoid startID endID
      (fun parents => rebuildPath parents startID (parents.length + 1) endID [])
      (prefFuel g) (aset (initCosts g) startID 0) [] [startID]
      (djInv_init g details preference avoid startID endID)
      (by simpa using pref_initial_fuel g startID)).2 ?_ hex
  intro costs3 parents3 pq3 inv3 hT3
  obtain ⟨c, hc, hrb⟩ := rebuild_ok inv3 hT3
  simp [hrb]

theorem findPreferredPathLegacy_sound (g : AdjGraph)
    (details : SystemID → Option ESISystemInfo) (preference : String)
    (avoid : SystemID → Bool) (startID endID : SystemID) :
    ∀ p, FindPreferredPathLegacy g startID endID details preference avoid = some p →
      ∃ costs2 parents2 pq2,
        DjInv g details preference avoid startID endID costs2 parents2 pq2 ∧
        (endID = startID ∨ (alookup parents2 endID).isSome = true) ∧
        rebuildPathLegacy parents2 startID (parents2.length + 1) endID [] = p := by
  intro p hp
  obtain ⟨costs2, parents2, pq2, inv2, hT2, hrec⟩ :=
    (prefLoop_main g details preference avoid startID endID
      (fun parents => some (rebuildPathLegacy parents startID (parents.length + 1)
        endID []))
      (prefFuel g) (aset (initCosts g) startID 0) [] [startID]
      (djInv_init g details preference avoid startID endID)
      (by simpa using pref_initial_fuel g startID)).1 p hp
  exact ⟨costs2, parents2, pq2, inv2, hT2, by injection hrec⟩

/-- C2 (amended): with identifiers clear of the BFS sentinel `-1`:
`FindShortestPath` returns the no-path sentinel whenever the start or the end
is excluded, only returns routes every system of which clears the exclusion
set, and returns the sentinel when the exclusion set disconnects start from
end.  `FindPreferredPath` has no entry guard: it returns the sentinel when the
end (but not necessarily the start) is excluded and distinct from the start,
every returned system other than the start clears the exclusion set, and
disconnection yields the sentinel when the start itself is not excluded; an
excluded start is still expanded and returned (see the counterexample). -/
theorem exclusionHandling (g : AdjGraph) (details : SystemID → Option ESISystemInfo)
    (preference : String) (avoid : SystemID → Bool) (startID endID : SystemID)
    (hid : (-1 : Int) ∉ allIds g) (hs : startID ≠ -1) :
    (avoid startID = true ∨ avoid endID = true →
      FindShortestPath g startID endID avoid = none) ∧
    (∀ p, FindShortestPath g startID endID avoid = some p →
      ∀ x ∈ p, avoid x = false) ∧
    ((¬ ∃ r, IsRoute g avoid startID endID r) →
      FindShortestPath g startID endID avoid = none) ∧
    (avoid endID = true → endID ≠ startID →
      FindPreferredPath g startID endID details preference avoid = none) ∧
    (∀ p, FindPreferredPath g startID endID details preference avoid = some p →
      ∀ x ∈ p, x ≠ startID → avoid x = false) ∧
    (avoid startID = false → endID ≠ startID →
      (¬ ∃ r, IsRoute g avoid startID endID r) →
      FindPreferredPath g startID endID details preference avoid = none) := by
  refine ⟨?_, ?_, ?_, ?_, ?_, ?_⟩
  · intro h
    rcases h with h | h <;> simp [FindShortestPath, h]
  · intro p hp x hx
    cases has : avoid startID with
    | true => simp [FindShortestPath, has] at hp
    | false =>
        cases hae : avoid endID with
        | true => simp [FindShortestPath, hae] at hp
        | false =>
            have hroute := ((findShortestPath_correct hid hs has hae).1 p hp).1
            exact isRoute_avoid hroute x hx
  · intro hnex
    cases has : avoid startID with
    | true => simp [FindShortestPath, has]
    | false =>
        cases hae : avoid endID with
        | true => simp [FindShortestPath, hae]
        | false =>
            cases hres : FindShortestPath g startID endID avoid with
            | none => rfl
            | some p =>
                exact absurd
                  ⟨p, ((findShortestPath_correct hid hs has hae).1 p hres).1⟩ hnex
  · intro hae hne
    cases hres : FindPreferredPath g startID endID details preference avoid with
    | none => rfl
    | some p =>
        exfalso
        obtain ⟨costs2, parents2, pq2, inv2, hT, _⟩ :=
          findPreferredPath_sound g details preference avoid startID endID p hres
        rcases hT with heq | hT
        · exact hne heq
        · obtain ⟨q, hq⟩ := Option.isSome_iff_exists.mp hT
          have hfalse := (inv2.entry endID q hq).1
          rw [hfalse] at hae
          cases hae
  · intro p hp x hx hxs
    obtain ⟨costs2, parents2, pq2, inv2, hT, hrb⟩ :=
      findPreferredPath_sound g details preference avoid startID endID p hp
    obtain ⟨c, hc, hrb2⟩ := rebuild_ok inv2 hT
    rw [hrb2] at hrb
    have hpc : c.reverse = p := by injection hrb
    have hxc : x ∈ c := by
      rw [← hpc] at hx
      exact List.mem_reverse.mp hx
    rcases plist_mem hc x hxc with rfl | hsome
    · exact absurd rfl hxs
    · obtain ⟨q, hq⟩ := Option.isSome_iff_exists.mp hsome
      exact (inv2.entry x q hq).1
  · intro hsa hne hnex
    cases hres : FindPreferredPath g startID endID details preference avoid with
    | none => rfl
    | some p =>
        exfalso
        obtain ⟨costs2, parents2, pq2, inv2, hT, _⟩ :=
          findPreferredPath_sound g details preference avoid startID endID p hres
        rcases hT with heq | hT
        · exact hne heq
        · exact hnex (inv2.reach hsa endID hT)

/-- Counterexample to C2 as stated: `FindPreferredPath` has no exclusion guard
on the start system, so with the start in the exclusion set it still expands
the start and returns a route containing it instead of the no-path
sentinel. -/
theorem exclusionHandling_ce :
    ∃ p, FindPreferredPath [((1 : Int), [2]), (2, [1])] 1 2 (fun _ => none)
        "shortest" (fun x => decide (x = 1)) = some p ∧ (1 : Int) ∈ p :=
  ⟨[1, 2], by decide, by decide⟩

/-- Closed instantiation of `exclusionHandling`: on the two-system graph `1 - 2`
the BFS refuses an excluded start and the weighted search refuses an excluded
end. -/
theorem exclusionHandling_witness :
    FindShortestPath [((1 : Int), [2]), (2, [1])] 1 2 (fun x => decide (x = 1)) =
      none ∧
    FindPreferredPath [((1 : Int), [2]), (2, [1])] 1 2 (fun _ => none) "shortest"
      (fun x => decide (x = 2)) = none :=
  ⟨(exclusionHandling [((1 : Int), [2]), (2, [1])] (fun _ => none) "shortest"
      (fun x => decide (x = 1)) 1 2 (by decide) (by decide)).1 (Or.inl (by decide)),
   (exclusionHandling [((1 : Int), [2]), (2, [1])] (fun _ => none) "shortest"
      (fun x => decide (x = 2)) 1 2 (by decide) (by decide)).2.2.2.1 (by decide)
      (by decide)⟩

/-- C7: with preference SaferFirst (`"safer"`) or UnsafeFirst (`"unsafe"`), a
system the detail resolver cannot resolve (`GetSystemDetails` error outcome,
embedded as `details n = none`) is treated as security-neutral — its traversal
cost is exactly the base `1`, with no `100`-point penalty — and given a route
whose systems lie in the graph and whose total cost is below the `1e9`
sentinel, the weighted search still completes and returns a route rather than
failing. -/
theorem unresolvedSystemNeutral (g : AdjGraph)
    (details : SystemID → Option ESISystemInfo) (preference : String)
    (avoid : SystemID → Bool) (startID endID : SystemID)
    (hpref : preference = "safer" ∨ preference = "unsafe")
    (hex : ∃ r, IsRoute g avoid startID endID r ∧
      (∀ x ∈ r, x ∈ keysG g ∨ x = startID) ∧
      routeCost details preference r < INF) :
    (∀ n, details n = none → stepCost details preference n = 1) ∧
    (FindPreferredPath g startID endID details preference avoid).isSome = true := by
  constructor
  · intro n hdn
    have h1 : preference ≠ "shortest" := by
      rcases hpref with rfl | rfl <;> decide
    unfold stepCost
    rw [if_pos h1, hdn]
  · exact findPreferredPath_complete g details preference avoid startID endID hex

/-- Closed instantiation of `unresolvedSystemNeutral`: on the chain `1 - 99 - 2`
whose middle system `99` is unresolved, the hop onto `99` costs `1` and the
SaferFirst search still returns a route. -/
theorem unresolvedSystemNeutral_witness :
    stepCost (fun n => if n = 99 then none else some ⟨"S", 1, 0⟩) "safer" 99 = 1 ∧
    (FindPreferredPath [((1 : Int), [99]), (99, [1, 2]), (2, [99])] 1 2
      (fun n => if n = 99 then none else some ⟨"S", 1, 0⟩) "safer"
      (fun _ => false)).isSome = true :=
  ⟨(unresolvedSystemNeutral [((1 : Int), [99]), (99, [1, 2]), (2, [99])]
      (fun n => if n = 99 then none else some ⟨"S", 1, 0⟩) "safer" (fun _ => false)
      1 2 (Or.inl rfl)
      ⟨[1, 99, 2],
        IsRoute.cons 1 99 2 [99, 2] (by decide) rfl
          (IsRoute.cons 99 2 2 [2] (by decide) rfl (IsRoute.single 2 rfl)),
        by decide, by norm_num [routeCost, stepCost, INF]; decide⟩).1 99 (by decide),
   (unresolvedSystemNeutral [((1 : Int), [99]), (99, [1, 2]), (2, [99])]
      (fun n => if n = 99 then none else some ⟨"S", 1, 0⟩) "safer" (fun _ => false)
      1 2 (Or.inl rfl)
      ⟨[1, 99, 2],
        IsRoute.cons 1 99 2 [99, 2] (by decide) rfl
          (IsRoute.cons 99 2 2 [2] (by decide) rfl (IsRoute.single 2 rfl)),
        by decide, by norm_num [routeCost, stepCost, INF]; decide⟩).2⟩

/-- C8 (amended): in the ShortCircuitBot variant of the weighted search the
reconstruction is fail-closed: a cursor with no recorded parent before the
start is reached makes `rebuildPath` return the no-path sentinel, and every
returned path begins at the start and ends at the end.  The legacy variant
(bot_service.go) instead treats a missing parent as the zero value `0`,
stops, and returns the truncated accumulator (see the counterexample). -/
theorem reconstructionNoTruncation (g : AdjGraph)
    (details : SystemID → Option ESISystemInfo) (preference : String)
    (avoid : SystemID → Bool) (startID endID : SystemID) :
    (∀ (parents : List (SystemID × SystemID)) (fuel : Nat) (cursor : SystemID)
      (acc : List SystemID), cursor ≠ startID → alookup parents cursor = none →
      rebuildPath parents startID fuel cursor acc = none) ∧
    (∀ p, FindPreferredPath g startID endID details preference avoid = some p →
      p.head? = some startID ∧ p.getLast? = some endID) := by
  constructor
  · intro parents fuel cursor acc hne hnone
    cases fuel with
    | zero => rfl
    | succ f => simp [rebuildPath, hne, hnone]
  · intro p hp
    obtain ⟨costs2, parents2, pq2, inv2, hT, hrb⟩ :=
      findPreferredPath_sound g details preference avoid startID endID p hp
    obtain ⟨c, hc, hrb2⟩ := rebuild_ok inv2 hT
    rw [hrb2] at hrb
    have hpc : c.reverse = p := by injection hrb
    subst hpc
    constructor
    · rw [List.head?_reverse]
      exact plist_getLast hc
    · rw [List.getLast?_reverse]
      exact plist_head hc

/-- Counterexample to C8 as stated: the legacy reconstruction reads a missing
parent as the zero value `0` and returns the truncated accumulator, so with
system `0` as the start the returned sequence `[2]` does not begin at the
start. -/
theorem reconstructionNoTruncation_ce :
    ∃ p, FindPreferredPathLegacy [((0 : Int), [2]), (2, [0])] 0 2 (fun _ => none)
        "shortest" (fun _ => false) = some p ∧ p.head? ≠ some (0 : Int) :=
  ⟨[2], by decide, by decide⟩

/-- Closed instantiation of `reconstructionNoTruncation`: the route returned on
the two-system graph `7 - 8` begins at the start and ends at the end. -/
theorem reconstructionNoTruncation_witness :
    ([(7 : Int), 8].head? = some 7) ∧ ([(7 : Int), 8].getLast? = some 8) :=
  (reconstructionNoTruncation [((7 : Int), [8]), (8, [7])] (fun _ => none)
      "shortest" (fun _ => false) 7 8).2 [7, 8] (by decide)
